import Mathlib

/-!
# GoRedis: the LevelDB-backed sorted set (`libs/levelredis/level_zset.go`)

A shallow embedding of `LevelZSet`: the key codec (`zsetKey`, `memberKey`,
`scoreKey`, `scoreKeyPrefix`, `splitScoreKey`), the mutating operations
(`Add`, `IncrBy`, `Remove`, `RemoveByIndex`, `RemoveByScore`, `Drop`) and the
queries (`Rank`, `RangeByIndex`, `RangeByScore`, `Len`), over an ordered
byte-key store with atomic write batches.

Byte strings (`[]byte` and Go `string`) are lists of bytes.  Go `int` and
`int64` values are `Int`; 64-bit wrap-around is explicit where the source
relies on it.  A Go run-time panic is an explicit result (`none`, or
`Res.panicked`).
-/

namespace GoRedis

/-! ## Bytes -/

/-- One byte. -/
abbrev Byte := Fin 256

/-- A byte string. -/
abbrev Bytes := List Byte

/-- Go `bytes.Compare`: `-1`, `0` or `1` by bytewise lexicographic order. -/
def Compare : Bytes → Bytes → Int
  | [], [] => 0
  | [], _ :: _ => -1
  | _ :: _, [] => 1
  | a :: as, b :: bs =>
    if a < b then -1 else if b < a then 1 else Compare as bs

/-- Go `bytes.HasPrefix(s, p)`. -/
def HasPrefix : Bytes → Bytes → Bool
  | _, [] => true
  | [], _ :: _ => false
  | a :: as, b :: bs => a == b && HasPrefix as bs

/-- Position of the last occurrence of `sep` at or after offset `i`, scanning
`s` from the left and remembering the latest hit (`best`). -/
def lastIndexFrom (sep : Byte) : Bytes → Int → Int → Int
  | [], _, best => best
  | b :: bs, i, best => lastIndexFrom sep bs (i + 1) (if b = sep then i else best)

/-- Go `bytes.LastIndex(s, []byte(SEP))` for a one-byte separator: the index of
the last occurrence, `-1` when there is none. -/
def LastIndex (s : Bytes) (sep : Byte) : Int :=
  lastIndexFrom sep s 0 (-1)

/-- Go slice expression `s[lo:hi]`; `none` is the run-time panic
"slice bounds out of range". -/
def slice (s : Bytes) (lo hi : Int) : Option Bytes :=
  if 0 ≤ lo ∧ lo ≤ hi ∧ hi ≤ (s.length : Int) then
    some ((s.take hi.toNat).drop lo.toNat)
  else none

/-! ## Constants of package `levelredis`

The constants `KEY_PREFIX`, `ZSET_PREFIX`, `SEP_LEFT`, `SEP_RIGHT`, `SEP`,
`ZSET_SUFFIX` are declared outside `level_zset.go`; the codec takes them as a
parameter.  `SEP` is a one-byte string: `splitScoreKey` steps over it with
`pos2+1`. -/

/-- The key-layout constants used by `level_zset.go`. -/
structure Consts where
  KEY_PREFIX : Bytes
  ZSET_PREFIX : Bytes
  SEP_LEFT : Bytes
  SEP_RIGHT : Bytes
  SEP : Byte
  ZSET_SUFFIX : Bytes
deriving DecidableEq

/-- Go `MAXBYTE`. -/
def MAXBYTE : Byte := 255

/-- The layout shown in the comment above `splitScoreKey`,
`_z[user_rank]s#1378000907596#100428`: `ZSET_PREFIX = "_z"`, `SEP_LEFT = "["`,
`SEP_RIGHT = "]"`, `SEP = "#"`.  The comment does not show a metadata key;
`KEY_PREFIX = "+"` and `ZSET_SUFFIX = "zset"` stand for its two constants. -/
def layout : Consts where
  KEY_PREFIX := [43]
  ZSET_PREFIX := [95, 122]
  SEP_LEFT := [91]
  SEP_RIGHT := [93]
  SEP := 35
  ZSET_SUFFIX := [122, 115, 101, 116]

/-! ## Score encoding -/

/-- Big-endian bytes of `n`, `w` of them (the low `8*w` bits). -/
def beBytes : Nat → Nat → Bytes
  | 0, _ => []
  | w + 1, n => beBytes w (n / 256) ++ [Fin.ofNat (n % 256)]

/-- Big-endian value of a byte string. -/
def beNat (b : Bytes) : Nat :=
  b.foldl (fun acc x => acc * 256 + x.val) 0

/-- Modelled from the spec: `Int64ToBytes` is declared outside `level_zset.go`;
"scores are signed 64-bit integers encoded as 8 big-endian bytes" (two's
complement). -/
def Int64ToBytes (i : Int) : Bytes :=
  beBytes 8 (i % 2 ^ 64).toNat

/-- Modelled from the spec: `BytesToInt64` is declared outside
`level_zset.go`; it reads 8 big-endian bytes as a signed 64-bit integer.  On a
string longer than 8 bytes the first 8 are read; on a shorter one the result
is 0. -/
def BytesToInt64 (b : Bytes) : Int :=
  if 8 ≤ b.length then
    let u := beNat (b.take 8)
    if u < 2 ^ 63 then (u : Int) else (u : Int) - 2 ^ 64
  else 0

/-- Go `int64` (and 64-bit `int`) addition: wraps modulo 2^64. -/
def addInt64 (a b : Int) : Int :=
  let u := (a + b) % 2 ^ 64
  if u < 2 ^ 63 then u else u - 2 ^ 64

/-! ## Key codec -/

/-- `zsetKey`: the metadata key, `KEY_PREFIX SEP_LEFT key SEP_RIGHT ZSET_SUFFIX`. -/
def zsetKey (c : Consts) (key : Bytes) : Bytes :=
  c.KEY_PREFIX ++ c.SEP_LEFT ++ key ++ c.SEP_RIGHT ++ c.ZSET_SUFFIX

/-- The prefix `Drop` scans: `ZSET_PREFIX SEP_LEFT key SEP_RIGHT`. -/
def aggPrefix (c : Consts) (key : Bytes) : Bytes :=
  c.ZSET_PREFIX ++ c.SEP_LEFT ++ key ++ c.SEP_RIGHT

/-- `memberKey`: `ZSET_PREFIX SEP_LEFT key SEP_RIGHT "m" SEP member`. -/
def memberKey (c : Consts) (key member : Bytes) : Bytes :=
  c.ZSET_PREFIX ++ c.SEP_LEFT ++ key ++ c.SEP_RIGHT ++ [109] ++ [c.SEP] ++ member

/-- The sign character of `scoreKey`: `"0"` for a negative score, else `"1"`. -/
def signOf (score : Bytes) : Byte :=
  if BytesToInt64 score < 0 then 48 else 49

/-- `scoreKey`: `ZSET_PREFIX SEP_LEFT key SEP_RIGHT "s" SEP sign score SEP member`. -/
def scoreKey (c : Consts) (key member score : Bytes) : Bytes :=
  c.ZSET_PREFIX ++ c.SEP_LEFT ++ key ++ c.SEP_RIGHT ++ [115] ++ [c.SEP] ++
    [signOf score] ++ score ++ [c.SEP] ++ member

/-- `scoreKeyPrefix`: `ZSET_PREFIX SEP_LEFT key SEP_RIGHT "s" SEP`. -/
def scoreKeyPrefix (c : Consts) (key : Bytes) : Bytes :=
  c.ZSET_PREFIX ++ c.SEP_LEFT ++ key ++ c.SEP_RIGHT ++ [115] ++ [c.SEP]

/-- `memberKey` without the member: `ZSET_PREFIX SEP_LEFT key SEP_RIGHT "m" SEP`. -/
def memberKeyPrefix (c : Consts) (key : Bytes) : Bytes :=
  c.ZSET_PREFIX ++ c.SEP_LEFT ++ key ++ c.SEP_RIGHT ++ [109] ++ [c.SEP]

/-- `splitScoreKey`: the two `bytes.LastIndex` calls and the two slice
expressions of the source, in its order.  The `if` of the source only prints;
it does not return.  `none` is a slice-bounds panic.  The result is
`(score, member)`. -/
def splitScoreKey (c : Consts) (scorekey : Bytes) : Option (Bytes × Bytes) :=
  let pos2 := LastIndex scorekey c.SEP
  match slice scorekey 0 pos2 with
  | none => none
  | some head =>
    let pos1 := LastIndex head c.SEP
    match slice scorekey (pos2 + 1) scorekey.length with
    | none => none
    | some member =>
      match slice scorekey (pos1 + 1 + 1) pos2 with
      | none => none
      | some score => some (score, member)

/-! ## The ordered store

`LevelRedis` wraps a LevelDB handle; its `Enumerate` and `PrefixEnumerate`
and the write batch are declared outside `level_zset.go`.  The store is a
list of `(key, value)` pairs kept in ascending key order. -/

/-- The store contents, ascending by key. -/
abbrev Store := List (Bytes × Bytes)

/-- One write-batch entry. -/
inductive Op where
  | put (k v : Bytes)
  | delete (k : Bytes)
deriving DecidableEq

/-- A `levigo.WriteBatch`: its entries in the order they were added. -/
abbrev Batch := List Op

namespace Store

/-- Keys of the store, in store order. -/
def keys (db : Store) : List Bytes := db.map Prod.fst

/-- Strictly ascending keys. -/
def WF : Store → Bool
  | [] => true
  | [_] => true
  | a :: b :: rest => decide (Compare a.1 b.1 = -1) && WF (b :: rest)

/-- The value stored under a key, `none` when the key is absent: what a
`db.Get` that succeeds returns. -/
def get : Store → Bytes → Option Bytes
  | [], _ => none
  | (k', v) :: rest, k => if k' = k then some v else get rest k

/-- Modelled from the spec: `db.Get`, "returns the value if present, or
absent.  Read failure surfaces as a retriable fault."  The result is the value
(`none` for Go `nil`) and whether `err != nil`; `ok` says whether this read
succeeds. -/
def Get (db : Store) (ok : Bool) (k : Bytes) : Option Bytes × Bool :=
  if ok then (db.get k, false) else (none, true)

/-- Removal of a key. -/
def delete (db : Store) (k : Bytes) : Store :=
  db.filter (fun e => decide (e.1 ≠ k))

/-- Insertion in key order, before the first greater key. -/
def insert (k v : Bytes) : Store → Store
  | [] => [(k, v)]
  | e :: rest =>
    if Compare k e.1 < 0 then (k, v) :: e :: rest else e :: insert k v rest

/-- Write of one key: any old entry is replaced. -/
def put (db : Store) (k v : Bytes) : Store :=
  insert k v (db.delete k)

/-- Effect of one batch entry. -/
def apply (db : Store) : Op → Store
  | .put k v => db.put k v
  | .delete k => db.delete k

/-- Modelled from the spec: `db.Write(batch)` on success, "atomically applies
all puts/deletes in the batch", in batch order. -/
def write (db : Store) (batch : Batch) : Store :=
  batch.foldl apply db

/-- Modelled from the spec: `LevelRedis.Enumerate(min, max, direction, fn)`
visits the "pairs within `[lower, upper]` in the requested direction"; this is
the sequence of pairs visited. -/
def Enumerate (db : Store) (min max : Bytes) (backward : Bool) : Store :=
  let r := db.filter (fun e => decide (Compare min e.1 ≤ 0) && decide (Compare e.1 max ≤ 0))
  if backward then r.reverse else r

/-- Modelled from the spec: `LevelRedis.PrefixEnumerate(prefix, direction, fn)`
visits every pair whose key starts with `prefix`, in the requested direction. -/
def PrefixEnumerate (db : Store) (pfx : Bytes) (backward : Bool) : Store :=
  let r := db.filter (fun e => HasPrefix e.1 pfx)
  if backward then r.reverse else r

end Store

/-- The callback protocol of the enumerations: `fn(i, key, value, &quit)` is
called on each visited pair with a running index from `i`, until it sets
`quit`.  The callback works on a state `σ` (the variables it captures) and
returns the new state and `quit`; `none` is a panic inside the callback. -/
def forEach {σ : Type} (fn : Int → Bytes → Bytes → σ → Option (σ × Bool)) :
    List (Bytes × Bytes) → Int → σ → Option σ
  | [], _, s => some s
  | e :: rest, i, s =>
    match fn i e.1 e.2 s with
    | none => none
    | some (s', quit) => if quit then some s' else forEach fn rest (i + 1) s'

/-! ## `LevelZSet` -/

/-- The engine object: the store handle, the logical key and the cached
cardinality. -/
structure LevelZSet where
  db : Store
  key : Bytes
  totalCount : Int
deriving DecidableEq

/-- Result of a call: a normal return with the value and the object
afterwards, or a Go panic with the object as the panic leaves it. -/
inductive Res (α : Type) where
  | ret (v : α) (l : LevelZSet)
  | panicked (l : LevelZSet)
deriving DecidableEq

/-- Decimal digits of `n` (with fuel). -/
def itoaDigits : Nat → Nat → Bytes
  | 0, _ => []
  | f + 1, n =>
    if n < 10 then [Fin.ofNat (48 + n)]
    else itoaDigits f (n / 10) ++ [Fin.ofNat (48 + n % 10)]

/-- Go `strconv.Itoa`. -/
def Itoa (i : Int) : Bytes :=
  if i < 0 then 45 :: itoaDigits (i.natAbs + 1) i.natAbs
  else itoaDigits (i.natAbs + 1) i.natAbs

/-- Value of a string of decimal digits, `none` on a non-digit. -/
def atoiDigits : Bytes → Nat → Option Nat
  | [], acc => some acc
  | b :: bs, acc =>
    if 48 ≤ b.val ∧ b.val ≤ 57 then atoiDigits bs (acc * 10 + (b.val - 48)) else none

/-- The nearest 64-bit integer: what `strconv.Atoi` returns on a range
error. -/
def clampInt64 (i : Int) : Int :=
  if i > 2 ^ 63 - 1 then 2 ^ 63 - 1 else if i < -2 ^ 63 then -2 ^ 63 else i

/-- Go `strconv.Atoi` with the error dropped (`l.totalCount, _ = ...`): 0 on
a syntax error, the nearest 64-bit integer on a range error. -/
def Atoi (s : Bytes) : Int :=
  match s with
  | [] => 0
  | b :: bs =>
    if b = 45 then
      match bs, atoiDigits bs 0 with
      | _ :: _, some n => clampInt64 (-(n : Int))
      | _, _ => 0
    else if b = 43 then
      match bs, atoiDigits bs 0 with
      | _ :: _, some n => clampInt64 (n : Int)
      | _, _ => 0
    else
      match atoiDigits (b :: bs) 0 with
      | some n => clampInt64 (n : Int)
      | none => 0

/-- `zsetValue`: the cached count as decimal text. -/
def zsetValue (total : Int) : Bytes := Itoa total

/-- `NewLevelZSet` with `initOnce`: the count is loaded from the metadata
key, 0 when it is absent, on a read that succeeds (`data, _ := ...Get`: on a
failed read `data` is `nil` and the count is 0). -/
def NewLevelZSet (c : Consts) (db : Store) (key : Bytes) : LevelZSet :=
  match db.get (zsetKey c key) with
  | some data => { db := db, key := key, totalCount := Atoi data }
  | none => { db := db, key := key, totalCount := 0 }

/-- `Len`. -/
def Len (l : LevelZSet) : Int := l.totalCount

/-- `score`: the member-index value, `none` for Go `nil`, on a read that
succeeds (on a failed read the source returns `nil` as for an absent
member). -/
def score (c : Consts) (l : LevelZSet) (member : Bytes) : Option Bytes :=
  l.db.get (memberKey c l.key member)

/-- Outcome of the point reads of one call: `rok j` says whether its `j`-th
`db.Get` succeeds. -/
abbrev ReadOracle := Nat → Bool

/-- The loop of `Add` over `scoreMembers`, two at a time, from read number
`j`.  The old score is read from the store (`l.redis.db.Get`), not from the
batch; the old score key is deleted when `e1 == nil && oldscore != nil`, and
in every other case, a failed read included, the count is incremented.  The
flag is `false` when `scoreMembers[i+1]` is out of range (odd length). -/
def addLoop (c : Consts) (l : LevelZSet) (rok : ReadOracle) :
    List Bytes → Nat → Batch → Int → Int → (Batch × Int × Int) × Bool
  | [], _, batch, total, n => ((batch, total, n), true)
  | [_], _, batch, total, n => ((batch, total, n), false)
  | sc :: member :: rest, j, batch, total, n =>
    let memberkey := memberKey c l.key member
    match l.db.Get (rok j) memberkey with
    | (some oldscore, false) =>
      addLoop c l rok rest (j + 1)
        (batch ++ [Op.delete (scoreKey c l.key member oldscore), Op.put memberkey sc,
          Op.put (scoreKey c l.key member sc) []])
        total (n + 1)
    | _ =>
      addLoop c l rok rest (j + 1)
        (batch ++ [Op.put memberkey sc, Op.put (scoreKey c l.key member sc) []])
        (total + 1) (n + 1)

/-- `Add` with the outcome of its reads.  `wok` says whether `db.Write`
succeeds; when it fails the source panics. -/
def AddWith (c : Consts) (l : LevelZSet) (rok : ReadOracle) (scoreMembers : List Bytes)
    (wok : Bool) : Res Int :=
  match addLoop c l rok scoreMembers 0 [] l.totalCount 0 with
  | ((_, total, _), false) => Res.panicked { l with totalCount := total }
  | ((batch, total, n), true) =>
    let batch := batch ++ [Op.put (zsetKey c l.key) (zsetValue total)]
    if wok then Res.ret n { l with db := l.db.write batch, totalCount := total }
    else Res.panicked { l with totalCount := total }

/-- `Add` on a run in which every `db.Get` succeeds. -/
def Add (c : Consts) (l : LevelZSet) (scoreMembers : List Bytes) (wok : Bool) : Res Int :=
  AddWith c l (fun _ => true) scoreMembers wok

/-- `IncrBy`.  Neither `totalCount` nor the metadata key is touched. -/
def IncrBy (c : Consts) (l : LevelZSet) (member : Bytes) (incr : Int) (wok : Bool) :
    Res Bytes :=
  let memberkey := memberKey c l.key member
  let (batch, newscore) : Batch × Bytes :=
    match score c l member with
    | none => ([], Int64ToBytes incr)
    | some sc =>
      ([Op.delete (scoreKey c l.key member sc)],
        Int64ToBytes (addInt64 (BytesToInt64 sc) incr))
  let batch := batch ++ [Op.put memberkey newscore, Op.put (scoreKey c l.key member newscore) []]
  if wok then Res.ret newscore { l with db := l.db.write batch }
  else Res.panicked l

/-- The callback of `Rank`: the captured `idx` is the state. -/
def rankFn (c : Consts) (high2low : Bool) (member : Bytes) :
    Int → Bytes → Bytes → Int → Option (Int × Bool) :=
  fun i key _ idx =>
    match splitScoreKey c key with
    | none => none
    | some (_, curmember) =>
      let rtn := Compare member curmember
      if rtn = 0 then some (i, true)
      else if high2low && decide (rtn > 0) then some (idx, true)
      else if !high2low && decide (rtn < 0) then some (idx, true)
      else some (idx, false)

/-- `Rank`; `none` is a panic inside the enumeration. -/
def Rank (c : Consts) (l : LevelZSet) (high2low : Bool) (member : Bytes) : Option Int :=
  match score c l member with
  | none => some (-1)
  | some _ =>
    forEach (rankFn c high2low member)
      (l.db.PrefixEnumerate (scoreKeyPrefix c l.key) high2low) 0 (-1)

/-- The callback of `RangeByIndex`: the captured `scoreMembers` is the state. -/
def rangeByIndexFn (c : Consts) (start stop : Int) :
    Int → Bytes → Bytes → List Bytes → Option (List Bytes × Bool) :=
  fun i key _ scoreMembers =>
    if i < start then some (scoreMembers, false)
    else if i ≥ start ∧ (stop = -1 ∨ i ≤ stop) then
      match splitScoreKey c key with
      | none => none
      | some (sc, member) => some (scoreMembers ++ [sc, member], false)
    else some (scoreMembers, true)

/-- `RangeByIndex`; `none` is a panic inside the enumeration. -/
def RangeByIndex (c : Consts) (l : LevelZSet) (high2low : Bool) (start stop : Int) :
    Option (List Bytes) :=
  forEach (rangeByIndexFn c start stop)
    (l.db.PrefixEnumerate (scoreKeyPrefix c l.key) high2low) 0 []

/-- The callback of `RangeByScore`; `offset+count` is a Go `int` sum and
wraps. -/
def rangeByScoreFn (c : Consts) (offset count : Int) :
    Int → Bytes → Bytes → List Bytes → Option (List Bytes × Bool) :=
  fun i key _ scoreMembers =>
    if i < offset then some (scoreMembers, false)
    else if count ≠ -1 ∧ i ≥ addInt64 offset count then some (scoreMembers, true)
    else
      match splitScoreKey c key with
      | none => none
      | some (sc, member) => some (scoreMembers ++ [sc, member], false)

/-- `RangeByScore`; `none` is a panic inside the enumeration. -/
def RangeByScore (c : Consts) (l : LevelZSet) (high2low : Bool) (min max : Bytes)
    (offset count : Int) : Option (List Bytes) :=
  let min2 := scoreKeyPrefix c l.key ++ min
  let max2 := scoreKeyPrefix c l.key ++ max ++ [MAXBYTE]
  forEach (rangeByScoreFn c offset count) (l.db.Enumerate min2 max2 high2low) 0 []

/-- The loop of `Remove` over `members`: the batch and `n`, on a run in which
every `db.Get` succeeds (a failed read is skipped like an absent member).  The
score is read from the store, not from the batch. -/
def removeLoop (c : Consts) (l : LevelZSet) : List Bytes → Batch → Int → Batch × Int
  | [], batch, n => (batch, n)
  | member :: rest, batch, n =>
    match l.db.get (memberKey c l.key member) with
    | none => removeLoop c l rest batch n
    | some sc =>
      removeLoop c l rest
        (batch ++ [Op.delete (memberKey c l.key member),
          Op.delete (scoreKey c l.key member sc)])
        (n + 1)

/-- The common tail of `Remove`, `RemoveByIndex` and `RemoveByScore`:
`totalCount -= n`, the metadata entry, the write. -/
def commitRemoved (c : Consts) (l : LevelZSet) (batch : Batch) (n : Int) (wok : Bool) :
    Res Int :=
  let total := l.totalCount - n
  let batch :=
    if total = 0 then batch ++ [Op.delete (zsetKey c l.key)]
    else batch ++ [Op.put (zsetKey c l.key) (zsetValue total)]
  if wok then Res.ret n { l with db := l.db.write batch, totalCount := total }
  else Res.panicked { l with totalCount := total }

/-- `Remove`. -/
def Remove (c : Consts) (l : LevelZSet) (members : List Bytes) (wok : Bool) : Res Int :=
  let (batch, n) := removeLoop c l members [] 0
  commitRemoved c l batch n wok

/-- The callback of `RemoveByIndex`: the batch and `n` are the state. -/
def removeByIndexFn (c : Consts) (key : Bytes) (start stop : Int) :
    Int → Bytes → Bytes → Batch × Int → Option ((Batch × Int) × Bool) :=
  fun i k _ st =>
    if i < start then some (st, false)
    else if i ≥ start ∧ (stop = -1 ∨ i ≤ stop) then
      match splitScoreKey c k with
      | none => none
      | some (sc, member) =>
        some ((st.1 ++ [Op.delete (memberKey c key member),
          Op.delete (scoreKey c key member sc)], st.2 + 1), false)
    else some (st, true)

/-- `RemoveByIndex`. -/
def RemoveByIndex (c : Consts) (l : LevelZSet) (start stop : Int) (wok : Bool) : Res Int :=
  match forEach (removeByIndexFn c l.key start stop)
      (l.db.PrefixEnumerate (scoreKeyPrefix c l.key) false) 0 ([], 0) with
  | none => Res.panicked l
  | some (batch, n) => commitRemoved c l batch n wok

/-- The callback of `RemoveByScore`. -/
def removeByScoreFn (c : Consts) (key : Bytes) :
    Int → Bytes → Bytes → Batch × Int → Option ((Batch × Int) × Bool) :=
  fun _ k _ st =>
    match splitScoreKey c k with
    | none => none
    | some (sc, member) =>
      some ((st.1 ++ [Op.delete (memberKey c key member),
        Op.delete (scoreKey c key member sc)], st.2 + 1), false)

/-- `RemoveByScore`. -/
def RemoveByScore (c : Consts) (l : LevelZSet) (min max : Bytes) (wok : Bool) : Res Int :=
  let min2 := scoreKeyPrefix c l.key ++ min
  let max2 := scoreKeyPrefix c l.key ++ max ++ [MAXBYTE]
  match forEach (removeByScoreFn c l.key) (l.db.Enumerate min2 max2 false) 0 ([], 0) with
  | none => Res.panicked l
  | some (batch, n) => commitRemoved c l batch n wok

/-- The callback of `Drop`: `batch.Delete(key)`. -/
def dropFn : Int → Bytes → Bytes → Batch → Option (Batch × Bool) :=
  fun _ k _ batch => some (batch ++ [Op.delete k], false)

/-- `Drop`: returns at once when the cached count is 0. -/
def Drop (c : Consts) (l : LevelZSet) (wok : Bool) : Res Bool :=
  if l.totalCount = 0 then Res.ret true l
  else
    match forEach dropFn (l.db.PrefixEnumerate (aggPrefix c l.key) false) 0 [] with
    | none => Res.panicked l
    | some batch =>
      let batch := batch ++ [Op.delete (zsetKey c l.key)]
      if wok then Res.ret true { l with db := l.db.write batch, totalCount := 0 }
      else Res.panicked l

/-! ## The two indexes and the invariants I1, I2 -/

/-- Member-index entries of `key` as `(member, score bytes)`: the pairs whose
key starts with `memberKeyPrefix`, the member being the rest of the key. -/
def memberIndex (c : Consts) (key : Bytes) (db : Store) : List (Bytes × Bytes) :=
  (db.filter (fun e => HasPrefix e.1 (memberKeyPrefix c key))).map
    (fun e => (e.1.drop (memberKeyPrefix c key).length, e.2))

/-- Score-index keys of `key`, in store order: the keys that start with
`scoreKeyPrefix`. -/
def scoreIndex (c : Consts) (key : Bytes) (db : Store) : List Bytes :=
  db.keys.filter (fun k => HasPrefix k (scoreKeyPrefix c key))

/-- The 8-byte score `sc` for which `k = scoreKey member sc`, when there is
one: after `scoreKeyPrefix`, `k` is the sign character, the 8 score bytes,
`SEP` and exactly `member`. -/
def entryScore (c : Consts) (key member k : Bytes) : Option Bytes :=
  if HasPrefix k (scoreKeyPrefix c key) then
    let r := k.drop (scoreKeyPrefix c key).length
    if r.length = member.length + 10 ∧ r.drop 9 = c.SEP :: member then
      match r.take 9 with
      | [] => none
      | sg :: sc => if sg = signOf sc then some sc else none
    else none
  else none

/-- Score-index entries for `member`: the score-index keys of the form
`scoreKey member sc` with an 8-byte score `sc`. -/
def entriesFor (c : Consts) (key : Bytes) (db : Store) (member : Bytes) : List Bytes :=
  (scoreIndex c key db).filter (fun k => (entryScore c key member k).isSome)

/-- I1: every member-index entry `(member, sc)` has exactly one score-index
entry for `member`, and that entry is `scoreKey member sc`. -/
def I1 (c : Consts) (key : Bytes) (db : Store) : Prop :=
  ∀ e ∈ memberIndex c key db, entriesFor c key db e.1 = [scoreKey c key e.1 e.2]

instance (c : Consts) (key : Bytes) (db : Store) : Decidable (I1 c key db) :=
  inferInstanceAs (Decidable (∀ e ∈ memberIndex c key db,
    entriesFor c key db e.1 = [scoreKey c key e.1 e.2]))

/-- Number of member-index entries of `key`. -/
def memberCount (c : Consts) (key : Bytes) (db : Store) : Int :=
  ((memberIndex c key db).length : Int)

/-- I2, the cache: `totalCount` is the number of member-index entries. -/
def I2 (c : Consts) (l : LevelZSet) : Prop :=
  l.totalCount = memberCount c l.key l.db

instance (c : Consts) (l : LevelZSet) : Decidable (I2 c l) :=
  inferInstanceAs (Decidable (l.totalCount = memberCount c l.key l.db))

/-- I2, the stored metadata: the metadata key holds the number of
member-index entries as decimal text, and is absent when that number is 0. -/
def I2stored (c : Consts) (l : LevelZSet) : Prop :=
  l.db.get (zsetKey c l.key) =
    if memberCount c l.key l.db = 0 then none
    else some (Itoa (memberCount c l.key l.db))

instance (c : Consts) (l : LevelZSet) : Decidable (I2stored c l) :=
  inferInstanceAs (Decidable (l.db.get (zsetKey c l.key) =
    if memberCount c l.key l.db = 0 then none
    else some (Itoa (memberCount c l.key l.db))))

/-- The object after a call that returned. -/
def Res.after {α : Type} : Res α → Option LevelZSet
  | Res.ret _ l => some l
  | Res.panicked _ => none

/-- The object a call leaves behind, returned or panicked. -/
def Res.obj {α : Type} : Res α → LevelZSet
  | Res.ret _ l => l
  | Res.panicked l => l

/-- States reachable from an empty sorted set (`NewLevelZSet` on an empty
store) through calls of the public mutating operations that return. -/
inductive Reachable (c : Consts) (key : Bytes) : LevelZSet → Prop where
  | init : Reachable c key (NewLevelZSet c [] key)
  | add {l l' : LevelZSet} (args : List Bytes) (wok : Bool) :
      Reachable c key l → (Add c l args wok).after = some l' → Reachable c key l'
  | incrBy {l l' : LevelZSet} (member : Bytes) (incr : Int) (wok : Bool) :
      Reachable c key l → (IncrBy c l member incr wok).after = some l' → Reachable c key l'
  | remove {l l' : LevelZSet} (members : List Bytes) (wok : Bool) :
      Reachable c key l → (Remove c l members wok).after = some l' → Reachable c key l'
  | removeByIndex {l l' : LevelZSet} (start stop : Int) (wok : Bool) :
      Reachable c key l → (RemoveByIndex c l start stop wok).after = some l' →
      Reachable c key l'
  | removeByScore {l l' : LevelZSet} (min max : Bytes) (wok : Bool) :
      Reachable c key l → (RemoveByScore c l min max wok).after = some l' →
      Reachable c key l'
  | drop {l l' : LevelZSet} (wok : Bool) :
      Reachable c key l → (Drop c l wok).after = some l' → Reachable c key l'

/-! ## Reading a score-index key by position

With 8-byte scores the fields of a score-index key sit at fixed offsets after
`scoreKeyPrefix`: the sign character, 8 score bytes, `SEP`, the member. -/

/-- The sign character and the 8 score bytes of a score-index key. -/
def entryEnc (c : Consts) (key k : Bytes) : Bytes :=
  (k.drop (scoreKeyPrefix c key).length).take 9

/-- The 8 score bytes of a score-index key. -/
def entryScore8 (c : Consts) (key k : Bytes) : Bytes :=
  (k.drop ((scoreKeyPrefix c key).length + 1)).take 8

/-- The member of a score-index key with an 8-byte score. -/
def entryMember8 (c : Consts) (key k : Bytes) : Bytes :=
  k.drop ((scoreKeyPrefix c key).length + 10)

/-- `min <= e <= max` bytewise. -/
def inScoreRange (min max e : Bytes) : Bool :=
  decide (Compare min e ≤ 0) && decide (Compare e max ≤ 0)

/-! ## The check inside `splitScoreKey` -/

/-- The condition of the `if` in `splitScoreKey`, under which the two
"bad scorekey" lines are printed. -/
def badScoreKey (len pos1 pos2 : Int) : Bool :=
  decide (pos1 + 1 + 1 ≥ len) || decide (pos2 ≥ len) || decide (pos1 > pos2) ||
    decide (pos1 = -1) || decide (pos2 = -1)

/-- Whether `splitScoreKey` prints "bad scorekey" on `scorekey`; `none` when
`scorekey[:pos2]` panics before the check is reached. -/
def splitScoreKeyLogs (c : Consts) (scorekey : Bytes) : Option Bool :=
  let pos2 := LastIndex scorekey c.SEP
  match slice scorekey 0 pos2 with
  | none => none
  | some head => some (badScoreKey scorekey.length (LastIndex head c.SEP) pos2)

/-- Number of occurrences of the separator byte. -/
def sepCount (c : Consts) (s : Bytes) : Nat := s.count c.SEP

/-! ## Replication: `go_redis_server_sync.go`

The session, the sync log, the slave registry and the suspend gate are
declared outside this file.  A run is described by the sequence of calls it
makes on them. -/

/-- Frame name `SYNC_RAW_BEG`. -/
def SYNC_RAW_BEG : Bytes := [83, 89, 78, 67, 95, 82, 65, 87, 95, 66, 69, 71]

/-- Frame name `SYNC_RAW`. -/
def SYNC_RAW : Bytes := [83, 89, 78, 67, 95, 82, 65, 87]

/-- Frame name `SYNC_RAW_FIN`. -/
def SYNC_RAW_FIN : Bytes := [83, 89, 78, 67, 95, 82, 65, 87, 95, 70, 73, 78]

/-- Frame name `SYNC_SEQ_BEG`. -/
def SYNC_SEQ_BEG : Bytes := [83, 89, 78, 67, 95, 83, 69, 81, 95, 66, 69, 71]

/-- Frame name `SYNC_SEQ`. -/
def SYNC_SEQ : Bytes := [83, 89, 78, 67, 95, 83, 69, 81]

/-- One call made by the replication code. -/
inductive Event where
  /-- `server.synclog.Enable()` -/
  | enable
  /-- `session.Close()` -/
  | close
  /-- `server.syncmgr.Put(remoteHost, session)` -/
  | put (remoteHost : Bytes)
  /-- `go func() { server.sendSnapshot(session) ... }()` -/
  | goSnapshot
  /-- `go func() { server.syncRunloop(session, seq) ... }()` -/
  | goRunloop (seq : Int)
  /-- `server.Suspend()` -/
  | suspend
  /-- `server.levelRedis.DB().NewSnapshot()` -/
  | newSnapshot
  /-- `server.synclog.LastSeq()` -/
  | lastSeq
  /-- `server.Resume()` -/
  | resume
  /-- `server.levelRedis.DB().ReleaseSnapshot(snap)` -/
  | releaseSnapshot
  /-- `session.WriteCommand(NewCommand(args...))` and whether it succeeded -/
  | write (args : List Bytes) (ok : Bool)
  /-- `session.Write(val)` and whether it succeeded -/
  | writeRaw (val : Bytes) (ok : Bool)
  /-- `time.Sleep` of the polling loop -/
  | sleep
deriving DecidableEq

/-- The `[SEQ]` argument of a `SYNC` command as `OnSYNC` reads it:
`len(cmd.Args) < 3`, `cmd.Int64AtIndex(2)` failing, or its value. -/
inductive SeqArg where
  | absent
  | bad
  | value (seq : Int)
deriving DecidableEq

/-- Reply of a command handler. -/
inductive Reply where
  | NOREPLY
  | ErrorReply (msg : Bytes)
deriving DecidableEq

/-- `OnSYNC`: the reply and the calls made, in order.  `enabled`, `minSeq`
and `maxSeq` are what `synclog.IsEnabled()`, `MinSeq()` and `MaxSeq()`
return.  The two goroutines are recorded by their start. -/
def OnSYNC (arg : SeqArg) (enabled : Bool) (minSeq maxSeq : Int) (remoteHost : Bytes) :
    Reply × List Event :=
  match arg with
  | SeqArg.bad => (Reply.ErrorReply [98, 97, 100, 32, 91, 83, 69, 81, 93], [])
  | _ =>
    let seq : Int := match arg with
      | SeqArg.value n => n
      | _ => -1
    let e1 := if enabled then [] else [Event.enable]
    let e2 := if seq < minSeq ∨ seq > maxSeq then [Event.close] else []
    let e3 := [Event.put remoteHost]
    let e4 := if seq < 0 then [Event.goSnapshot] else [Event.goRunloop seq]
    (Reply.NOREPLY, e1 ++ e2 ++ e3 ++ e4)

/-- Result of `synclog.Read(seq)`: an error, `nil` (not yet written), or the
raw command bytes. -/
inductive ReadResult where
  | err
  | absent
  | value (val : Bytes)
deriving DecidableEq

/-- Modelled from the spec: `SyncLog.Read`, "returns the raw bytes at `seq` if
`min_seq <= seq <= max_seq`, absent if `seq > max_seq`, error if
`seq < min_seq`".  The log grows while the loop runs, so the result depends on
the call: `read t seq` is the result of the `t`-th `Read` of the run. -/
abbrev LogReads := Nat → Int → ReadResult

/-- Outcome of the session writes: `ok w` says whether the `w`-th write of
the run succeeds. -/
abbrev WriteOracle := Nat → Bool

/-- The `for` loop of `syncRunloop` with `session.Close()` after it, run for
at most `fuel` iterations from read number `t`, write number `w` and sequence
`seq`; `seq++` is an `int64` increment.  The flag says whether the loop was
left (`true`) or is still running when the fuel ends (`false`). -/
def tailLoop (read : LogReads) (ok : WriteOracle) : Nat → Nat → Nat → Int → List Event × Bool
  | 0, _, _, _ => ([], false)
  | fuel + 1, t, w, seq =>
    match read t seq with
    | ReadResult.err => ([Event.close], true)
    | ReadResult.absent =>
      let r := tailLoop read ok fuel (t + 1) w seq
      (Event.sleep :: r.1, r.2)
    | ReadResult.value val =>
      if ok w then
        if ok (w + 1) then
          let r := tailLoop read ok fuel (t + 1) (w + 2) (addInt64 seq 1)
          (Event.write [SYNC_SEQ, Itoa seq] true :: Event.writeRaw val true :: r.1, r.2)
        else
          ([Event.write [SYNC_SEQ, Itoa seq] true, Event.writeRaw val false, Event.close], true)
      else ([Event.write [SYNC_SEQ, Itoa seq] false, Event.close], true)

/-- `syncRunloop(session, lastseq)`: the calls made and whether the function
has returned.  When the `SYNC_SEQ_BEG` write fails it returns at once. -/
def syncRunloop (read : LogReads) (ok : WriteOracle) (fuel t w : Nat) (lastseq : Int) :
    List Event × Bool :=
  if ok w then
    let r := tailLoop read ok fuel t (w + 1) lastseq
    (Event.write [SYNC_SEQ_BEG] true :: r.1, r.2)
  else ([Event.write [SYNC_SEQ_BEG] false], true)

/-- The callback of the snapshot scan in `sendSnapshot`.  The state is the
calls made so far, the number of the next write and `broken`. -/
def snapshotFn (PREFIX : Bytes) (ok : WriteOracle) :
    Int → Bytes → Bytes → List Event × Nat × Bool → Option ((List Event × Nat × Bool) × Bool) :=
  fun _ key value st =>
    if HasPrefix key PREFIX then some (st, false)
    else if ok st.2.1 then
      some ((st.1 ++ [Event.write [SYNC_RAW, key, value] true], st.2.1 + 1, st.2.2), false)
    else
      some ((st.1 ++ [Event.write [SYNC_RAW, key, value] false], st.2.1 + 1, true), true)

/-- `sendSnapshot(session)`: the calls made and whether the function has
returned.  `snap` is the content of the snapshot, `curseq` the value
`LastSeq()` returns; `SnapshotEnumerate(snap, []byte{}, []byte{MAXBYTE}, fn)`
visits the pairs of `snap` within these bounds.  `curseq++` is an `int64`
increment.  The deferred function releases the snapshot on return unless
`snaprelease` is set. -/
def sendSnapshot (PREFIX : Bytes) (snap : Store) (curseq : Int) (read : LogReads)
    (ok : WriteOracle) (fuel : Nat) : List Event × Bool :=
  let gate := [Event.suspend, Event.newSnapshot, Event.lastSeq, Event.resume]
  if ok 0 then
    match forEach (snapshotFn PREFIX ok) (snap.Enumerate [] [MAXBYTE] false) 0 ([], 1, false) with
    | none => (gate ++ [Event.write [SYNC_RAW_BEG] true, Event.releaseSnapshot], true)
    | some (evs, w, broken) =>
      if broken then
        (gate ++ [Event.write [SYNC_RAW_BEG] true] ++ evs ++ [Event.releaseSnapshot], true)
      else if ok w then
        let r := syncRunloop read ok fuel 0 (w + 1) (addInt64 curseq 1)
        (gate ++ [Event.write [SYNC_RAW_BEG] true] ++ evs ++
          [Event.write [SYNC_RAW_FIN] true, Event.releaseSnapshot] ++ r.1, r.2)
      else
        (gate ++ [Event.write [SYNC_RAW_BEG] true] ++ evs ++
          [Event.write [SYNC_RAW_FIN] false, Event.releaseSnapshot], true)
  else (gate ++ [Event.write [SYNC_RAW_BEG] false, Event.releaseSnapshot], true)

/-- The `SYNC_SEQ` frames of a gap-free tail from `s` over the log values
`vals`: for `s, s+1, ...` the frame `SYNC_SEQ <decimal s>` and then the raw
bytes. -/
def seqFrames : Int → List Bytes → List Event
  | _, [] => []
  | s, v :: vs =>
    Event.write [SYNC_SEQ, Itoa s] true :: Event.writeRaw v true :: seqFrames (s + 1) vs

/-- The `SYNC_RAW` frames of the pairs of a snapshot that lie within the scan
bounds `[[], [MAXBYTE]]` and do not start with `PREFIX`, in snapshot order. -/
def rawFrames (PREFIX : Bytes) (snap : Store) : List Event :=
  ((snap.Enumerate [] [MAXBYTE] false).filter (fun e => !HasPrefix e.1 PREFIX)).map
    (fun e => Event.write [SYNC_RAW, e.1, e.2] true)

/-- The entries at the positions `i, i+1, ...` that lie in the window
`start <= position` and (`stop = -1` or `position <= stop`). -/
def windowFrom {α : Type} (start stop : Int) : List α → Int → List α
  | [], _ => []
  | x :: xs, i =>
    if start ≤ i ∧ (stop = -1 ∨ i ≤ stop) then x :: windowFrom start stop xs (i + 1)
    else windowFrom start stop xs (i + 1)

/-! ## Sample states -/

/-- The logical key `z`. -/
def exKey : Bytes := [122]

/-- The member `a`. -/
def exA : Bytes := [97]

/-- The member `b`. -/
def exB : Bytes := [98]

/-- A fresh sorted set on an empty store. -/
def exEmpty : LevelZSet := NewLevelZSet layout [] exKey

/-- The set after `Add(1, b, 2, a)`: member order is opposite to score order. -/
def exTwo : LevelZSet :=
  (Add layout exEmpty [Int64ToBytes 1, exB, Int64ToBytes 2, exA] true).obj

/-- The set after `Add(35, a)`: the last score byte is `#`. -/
def exSep : LevelZSet :=
  (Add layout exEmpty [Int64ToBytes 35, exA] true).obj

/-- The set after `Add(8960, a)`: the seventh score byte is `#`. -/
def exSepMid : LevelZSet :=
  (Add layout exEmpty [Int64ToBytes 8960, exA] true).obj

/-- The set after `IncrBy(a, 1)` on a fresh set. -/
def exIncr : LevelZSet :=
  (IncrBy layout exEmpty exA 1 true).obj

/-- The set after `Add(1, a, 2, x#a)`: one member is a suffix of the other
after a separator. -/
def exSuffix : LevelZSet :=
  (Add layout exEmpty [Int64ToBytes 1, exA, Int64ToBytes 2, [120, 35, 97]] true).obj

/-- A call whose point reads all succeed. -/
def exReadsOk : ReadOracle := fun _ => true

/-- A call whose point reads all fail. -/
def exNoRead : ReadOracle := fun _ => false

/-- A session on which every write succeeds. -/
def exAllOk : WriteOracle := fun _ => true

/-- A session on which every write fails (a closed connection). -/
def exNoWrite : WriteOracle := fun _ => false

/-- A session on which the first two writes succeed and the rest fail. -/
def exTwoWrites : WriteOracle := fun w => decide (w < 2)

/-- A log holding the sequences 5, 6, 7 (`MinSeq` = 5, `MaxSeq` = 7), the
entry for `s` being the byte `s`. -/
def exLog : LogReads := fun _ s =>
  if s < 5 then ReadResult.err
  else if s ≤ 7 then ReadResult.value [Fin.ofNat s.toNat]
  else ReadResult.absent

/-- A reserved key prefix, `__`. -/
def exPREFIX : Bytes := [95, 95]

/-- A snapshot with the keys `k`, `__x` (reserved) and the one-byte key 0xFF. -/
def exSnap : Store := [([107], [118]), ([95, 95, 120], [119]), ([255], [120])]

/-- A snapshot with the keys `k` and the two-byte key 0xFF 0x01. -/
def exSnapHigh : Store := [([107], [118]), ([255, 1], [119])]

/-- A remote address. -/
def exHost : Bytes := [104]

/-- The logical key `a`. -/
def exKeyA : Bytes := [97]

/-- The logical key `a]m#x`. -/
def exKeyBracket : Bytes := [97, 93, 109, 35, 120]

set_option maxRecDepth 100000

/-! ## Lemmas on `Compare` and `HasPrefix` -/

theorem Compare_self (a : Bytes) : Compare a a = 0 := by
  induction a with
  | nil => rfl
  | cons x xs ih => simp [Compare, ih]

theorem Compare_append_left (p a b : Bytes) : Compare (p ++ a) (p ++ b) = Compare a b := by
  induction p with
  | nil => rfl
  | cons x xs ih => simp [Compare, ih]

theorem Compare_append_of_lt : ∀ (a b s t : Bytes), a.length = b.length →
    Compare a b = -1 → Compare (a ++ s) (b ++ t) = -1
  | [], [], _, _, _, h => by simp [Compare] at h
  | [], _ :: _, _, _, hl, _ => by simp at hl
  | _ :: _, [], _, _, hl, _ => by simp at hl
  | x :: xs, y :: ys, s, t, hl, h => by
    simp only [List.cons_append, Compare] at h ⊢
    by_cases h1 : x < y
    · simp [h1]
    · by_cases h2 : y < x
      · simp [h1, h2] at h
      · simp only [h1, h2, if_false] at h ⊢
        exact Compare_append_of_lt xs ys s t (by simpa using hl) h

theorem beBytes_length (w n : Nat) : (beBytes w n).length = w := by
  induction w generalizing n with
  | zero => rfl
  | succ w ih => simp [beBytes, ih]

theorem beBytes_lt (w : Nat) : ∀ (a b : Nat), a < b → b < 256 ^ w →
    Compare (beBytes w a) (beBytes w b) = -1 := by
  induction w with
  | zero => intro a b h1 h2; simp at h2; omega
  | succ w ih =>
    intro a b h1 h2
    simp only [beBytes]
    by_cases hq : a / 256 < b / 256
    · apply Compare_append_of_lt
      · simp [beBytes_length]
      · apply ih _ _ hq
        rw [Nat.div_lt_iff_lt_mul (by norm_num)]
        rw [pow_succ] at h2; exact h2
    · have hq2 : a / 256 = b / 256 := by
        have := Nat.div_le_div_right (c := 256) (Nat.le_of_lt h1)
        omega
      rw [hq2, Compare_append_left]
      have hm : a % 256 < b % 256 := by omega
      have : (Fin.ofNat (a % 256) : Fin 256) < Fin.ofNat (b % 256) := by
        simp [Fin.lt_def, Fin.ofNat]
        omega
      simp [Compare, this]

theorem beNat_append (xs : Bytes) (b : Byte) : beNat (xs ++ [b]) = beNat xs * 256 + b.val := by
  simp [beNat, List.foldl_append]

theorem beNat_beBytes (w n : Nat) : beNat (beBytes w n) = n % 256 ^ w := by
  induction w generalizing n with
  | zero => simp [beBytes, beNat, Nat.mod_one]
  | succ w ih =>
    rw [beBytes, beNat_append, ih]
    have h : (Fin.ofNat (n % 256) : Fin 256).val = n % 256 := by
      simp [Fin.ofNat]
    rw [h, pow_succ]
    have := Nat.mod_mul (a := 256) (b := 256 ^ w) (x := n)
    rw [Nat.mul_comm (256 ^ w) 256, Nat.mod_mul]
    omega

theorem BytesToInt64_Int64ToBytes (s : Int) (h : -2 ^ 63 ≤ s ∧ s < 2 ^ 63) :
    BytesToInt64 (Int64ToBytes s) = s := by
  unfold BytesToInt64 Int64ToBytes
  have hl : (beBytes 8 (s % 2 ^ 64).toNat).length = 8 := beBytes_length _ _
  have ht : (beBytes 8 (s % 2 ^ 64).toNat).take 8 = beBytes 8 (s % 2 ^ 64).toNat := by
    rw [List.take_of_length_le (by omega)]
  simp only [hl, le_refl, if_true, ht, beNat_beBytes]
  have h0 : 0 ≤ s % 2 ^ 64 := Int.emod_nonneg _ (by norm_num)
  have h1 : s % 2 ^ 64 < 2 ^ 64 := Int.emod_lt_of_pos _ (by norm_num)
  have h2 : (s % 2 ^ 64).toNat < 256 ^ 8 := by omega
  rw [Nat.mod_eq_of_lt h2]
  have h3 : ((s % 2 ^ 64).toNat : Int) = s % 2 ^ 64 := Int.toNat_of_nonneg h0
  split
  · omega
  · omega


theorem signOf_Int64ToBytes (s : Int) (h : -2 ^ 63 ≤ s ∧ s < 2 ^ 63) :
    signOf (Int64ToBytes s) = if s < 0 then 48 else 49 := by
  unfold signOf
  rw [BytesToInt64_Int64ToBytes s h]

theorem scoreKey_eq (c : Consts) (key member sc : Bytes) :
    scoreKey c key member sc =
      scoreKeyPrefix c key ++ ((signOf sc :: sc) ++ (c.SEP :: member)) := by
  simp [scoreKey, scoreKeyPrefix]

theorem Int64ToBytes_lt (s1 s2 : Int) (h : s1 < s2)
    (hs : (s1 < 0 ∧ s2 < 0) ∨ (0 ≤ s1 ∧ 0 ≤ s2))
    (h1 : -2 ^ 63 ≤ s1 ∧ s1 < 2 ^ 63) (h2 : -2 ^ 63 ≤ s2 ∧ s2 < 2 ^ 63) :
    Compare (Int64ToBytes s1) (Int64ToBytes s2) = -1 := by
  unfold Int64ToBytes
  have a0 : 0 ≤ s1 % 2 ^ 64 := Int.emod_nonneg _ (by norm_num)
  have b0 : 0 ≤ s2 % 2 ^ 64 := Int.emod_nonneg _ (by norm_num)
  have b1 : s2 % 2 ^ 64 < 2 ^ 64 := Int.emod_lt_of_pos _ (by norm_num)
  have a3 : ((s1 % 2 ^ 64).toNat : Int) = s1 % 2 ^ 64 := Int.toNat_of_nonneg a0
  have b3 : ((s2 % 2 ^ 64).toNat : Int) = s2 % 2 ^ 64 := Int.toNat_of_nonneg b0
  apply beBytes_lt
  · omega
  · omega

theorem Compare_cons_same (a : Byte) (x y : Bytes) :
    Compare (a :: x) (a :: y) = Compare x y := by
  simp [Compare]

theorem Compare_cons_lt (a b : Byte) (x y : Bytes) (h : a < b) :
    Compare (a :: x) (b :: y) = -1 := by
  simp [Compare, h]

/-- C2: for one logical key and signed 64-bit scores `s1`, `s2` in their
8-byte big-endian two's-complement encoding, `s1 < s2` makes
`scoreKey m1 s1` bytewise smaller than `scoreKey m2 s2` for all members, and
for `s1 = s2` the two keys compare exactly as `m1` and `m2` do. -/
theorem scoreKey_order (c : Consts) (key : Bytes) (s1 s2 : Int)
    (h1 : -2 ^ 63 ≤ s1 ∧ s1 < 2 ^ 63) (h2 : -2 ^ 63 ≤ s2 ∧ s2 < 2 ^ 63)
    (m1 m2 : Bytes) :
    (s1 < s2 → Compare (scoreKey c key m1 (Int64ToBytes s1))
        (scoreKey c key m2 (Int64ToBytes s2)) = -1) ∧
    (s1 = s2 → Compare (scoreKey c key m1 (Int64ToBytes s1))
        (scoreKey c key m2 (Int64ToBytes s2)) = Compare m1 m2) := by
  constructor
  · intro h
    rw [scoreKey_eq, scoreKey_eq, Compare_append_left]
    apply Compare_append_of_lt
    · simp [Int64ToBytes, beBytes_length]
    · rw [signOf_Int64ToBytes s1 h1, signOf_Int64ToBytes s2 h2]
      by_cases n1 : s1 < 0
      · by_cases n2 : s2 < 0
        · rw [if_pos n1, if_pos n2, Compare_cons_same]
          exact Int64ToBytes_lt s1 s2 h (Or.inl ⟨n1, n2⟩) h1 h2
        · rw [if_pos n1, if_neg n2]
          exact Compare_cons_lt _ _ _ _ (by decide)
      · have n2 : ¬ s2 < 0 := by omega
        rw [if_neg n1, if_neg n2, Compare_cons_same]
        exact Int64ToBytes_lt s1 s2 h (Or.inr ⟨by omega, by omega⟩) h1 h2
  · intro h
    subst h
    rw [scoreKey_eq, scoreKey_eq, Compare_append_left, Compare_append_left,
      Compare_cons_same]


/-! ## Lemmas on the store -/

theorem HasPrefix_iff (s p : Bytes) : HasPrefix s p = true ↔ p <+: s := by
  induction p generalizing s with
  | nil => simp [HasPrefix]
  | cons b bs ih =>
    cases s with
    | nil => simp [HasPrefix]
    | cons a as =>
      simp only [HasPrefix, Bool.and_eq_true, beq_iff_eq, ih, List.cons_prefix_cons]
      constructor
      · rintro ⟨h1, h2⟩; exact ⟨h1.symm, h2⟩
      · rintro ⟨h1, h2⟩; exact ⟨h1.symm, h2⟩

theorem HasPrefix_append (p r : Bytes) : HasPrefix (p ++ r) p = true :=
  (HasPrefix_iff _ _).2 (List.prefix_append p r)

theorem HasPrefix_append_append (p x y : Bytes) :
    HasPrefix (p ++ x) (p ++ y) = HasPrefix x y := by
  induction p with
  | nil => rfl
  | cons a as ih => simp [HasPrefix, ih]

theorem Store.keys_delete (db : Store) (k : Bytes) :
    (Store.delete db k).keys = db.keys.filter (fun x => decide (x ≠ k)) := by
  unfold Store.delete Store.keys
  rw [List.filter_map]
  rfl

theorem Store.insert_perm (k v : Bytes) (db : Store) :
    (Store.insert k v db).Perm ((k, v) :: db) := by
  induction db with
  | nil => simp [Store.insert]
  | cons e rest ih =>
    simp only [Store.insert]
    split
    · exact List.Perm.refl _
    · exact (List.Perm.cons e ih).trans (List.Perm.swap _ _ _)

theorem Store.keys_put_perm (db : Store) (k v : Bytes) :
    (Store.put db k v).keys.Perm (k :: db.keys.filter (fun x => decide (x ≠ k))) := by
  unfold Store.put
  have h := (Store.insert_perm k v (Store.delete db k)).map Prod.fst
  rw [← Store.keys_delete]
  simpa [Store.keys] using h

theorem Store.get_delete (db : Store) (k k' : Bytes) :
    Store.get (Store.delete db k) k' = if k' = k then none else Store.get db k' := by
  induction db with
  | nil => simp [Store.delete, Store.get]
  | cons e rest ih =>
    obtain ⟨ek, ev⟩ := e
    unfold Store.delete at ih ⊢
    rw [List.filter_cons]
    by_cases h : ek = k
    · subst h
      rw [if_neg (by simp), ih]
      by_cases h2 : k' = ek
      · simp [h2]
      · simp [h2, Store.get, Ne.symm h2]
    · rw [if_pos (by simpa using h)]
      simp only [Store.get, ih]
      by_cases h2 : k' = k
      · subst h2
        simp [h]
      · simp [h2]

theorem Store.get_insert_ne (db : Store) (k v k' : Bytes) (h : k' ≠ k) :
    Store.get (Store.insert k v db) k' = Store.get db k' := by
  induction db with
  | nil => simp [Store.insert, Store.get, Ne.symm h]
  | cons e rest ih =>
    obtain ⟨ek, ev⟩ := e
    simp only [Store.insert]
    split
    · simp [Store.get, Ne.symm h]
    · simp [Store.get, ih]

theorem Store.get_insert_self (db : Store) (k v : Bytes) (h : Store.get db k = none) :
    Store.get (Store.insert k v db) k = some v := by
  induction db with
  | nil => simp [Store.insert, Store.get]
  | cons e rest ih =>
    obtain ⟨ek, ev⟩ := e
    simp only [Store.get] at h
    split at h
    · simp at h
    · rename_i hne
      simp only [Store.insert]
      split
      · simp [Store.get]
      · simp [Store.get, hne, ih h]

theorem Store.get_put (db : Store) (k v k' : Bytes) :
    Store.get (Store.put db k v) k' = if k' = k then some v else Store.get db k' := by
  unfold Store.put
  by_cases h : k' = k
  · subst h
    rw [if_pos rfl]
    apply Store.get_insert_self
    simp [Store.get_delete]
  · rw [if_neg h, Store.get_insert_ne _ _ _ _ h, Store.get_delete, if_neg h]

theorem Store.mem_of_get (db : Store) (k v : Bytes) (h : Store.get db k = some v) :
    (k, v) ∈ db := by
  induction db with
  | nil => simp [Store.get] at h
  | cons e rest ih =>
    obtain ⟨ek, ev⟩ := e
    simp only [Store.get] at h
    split at h
    · rename_i he
      simp only [Option.some.injEq] at h
      simp [he, h]
    · exact List.mem_cons_of_mem _ (ih h)


/-! ## Lemmas on the indexes -/

theorem scoreKeyPrefix_eq (c : Consts) (key : Bytes) :
    scoreKeyPrefix c key = aggPrefix c key ++ [115, c.SEP] := by
  simp [scoreKeyPrefix, aggPrefix]

theorem memberKey_eq (c : Consts) (key member : Bytes) :
    memberKey c key member = memberKeyPrefix c key ++ member := by
  simp [memberKey, memberKeyPrefix]

theorem memberKeyPrefix_eq (c : Consts) (key : Bytes) :
    memberKeyPrefix c key = aggPrefix c key ++ [109, c.SEP] := by
  simp [memberKeyPrefix, aggPrefix]

theorem HasPrefix_aggPrefix_of_scoreKeyPrefix (c : Consts) (key k : Bytes)
    (h : HasPrefix k (scoreKeyPrefix c key) = true) : HasPrefix k (aggPrefix c key) = true := by
  rw [HasPrefix_iff] at h ⊢
  rw [scoreKeyPrefix_eq] at h
  exact (List.prefix_append _ _).trans h

theorem memberKey_not_scoreIndex (c : Consts) (key member : Bytes) :
    HasPrefix (memberKey c key member) (scoreKeyPrefix c key) = false := by
  rw [memberKey_eq, memberKeyPrefix_eq, scoreKeyPrefix_eq, List.append_assoc,
    HasPrefix_append_append]
  simp [HasPrefix]

theorem HasPrefix_memberKey_aggPrefix (c : Consts) (key member : Bytes) :
    HasPrefix (memberKey c key member) (aggPrefix c key) = true := by
  rw [memberKey_eq, memberKeyPrefix_eq, List.append_assoc]
  exact HasPrefix_append _ _

theorem HasPrefix_scoreKey (c : Consts) (key member sc : Bytes) :
    HasPrefix (scoreKey c key member sc) (scoreKeyPrefix c key) = true := by
  rw [scoreKey_eq]
  exact HasPrefix_append _ _

theorem entryScore_scoreKey (c : Consts) (key member sc : Bytes) (h8 : sc.length = 8) :
    entryScore c key member (scoreKey c key member sc) = some sc := by
  unfold entryScore
  rw [if_pos (HasPrefix_scoreKey c key member sc), scoreKey_eq]
  simp only [List.drop_left]
  have h9 : (9 : Nat) = (signOf sc :: sc).length := by simp [h8]
  have hlen : ((signOf sc :: sc) ++ (c.SEP :: member)).length = member.length + 10 := by
    simp only [List.length_append, List.length_cons, h8]
    omega
  rw [h9, List.drop_left, List.take_left, if_pos ⟨hlen, rfl⟩]
  simp

theorem mem_memberIndex_of_score (c : Consts) (l : LevelZSet) (a s1 : Bytes)
    (h : score c l a = some s1) : (a, s1) ∈ memberIndex c l.key l.db := by
  unfold score at h
  have hm := Store.mem_of_get _ _ _ h
  unfold memberIndex
  rw [List.mem_map]
  refine ⟨(memberKey c l.key a, s1), ?_, ?_⟩
  · rw [List.mem_filter]
    refine ⟨hm, ?_⟩
    rw [memberKey_eq]
    exact HasPrefix_append _ _
  · simp only [memberKey_eq, List.drop_left]

theorem entriesFor_delete (c : Consts) (key : Bytes) (db : Store) (member k : Bytes) :
    entriesFor c key (Store.delete db k) member =
      (entriesFor c key db member).filter (fun x => decide (x ≠ k)) := by
  unfold entriesFor scoreIndex
  rw [Store.keys_delete]
  simp only [List.filter_filter]
  congr 1
  funext x
  cases HasPrefix x (scoreKeyPrefix c key) <;>
    cases (entryScore c key member x).isSome <;> cases decide (x ≠ k) <;> rfl

theorem entriesFor_put_perm (c : Consts) (key : Bytes) (db : Store) (member k v : Bytes) :
    (entriesFor c key (Store.put db k v) member).Perm
      (if HasPrefix k (scoreKeyPrefix c key) && (entryScore c key member k).isSome then
        k :: (entriesFor c key db member).filter (fun x => decide (x ≠ k))
      else (entriesFor c key db member).filter (fun x => decide (x ≠ k))) := by
  have h := ((Store.keys_put_perm db k v).filter
    (fun k => HasPrefix k (scoreKeyPrefix c key))).filter
    (fun k => (entryScore c key member k).isSome)
  rw [← entriesFor_delete]
  unfold entriesFor scoreIndex at *
  rw [Store.keys_delete]
  refine h.trans ?_
  simp only [List.filter_cons]
  cases h1 : HasPrefix k (scoreKeyPrefix c key) <;>
    cases h2 : (entryScore c key member k).isSome <;> simp [h1, h2]


theorem AddWith_pair_present (c : Consts) (l : LevelZSet) (rok : ReadOracle)
    (a s1 s2 : Bytes) (ha : score c l a = some s1) (hr : rok 0 = true) :
    AddWith c l rok [s2, a] true = Res.ret 1
      { l with
        db := Store.put (Store.put (Store.put (Store.delete l.db (scoreKey c l.key a s1))
          (memberKey c l.key a) s2) (scoreKey c l.key a s2) [])
          (zsetKey c l.key) (zsetValue l.totalCount) } := by
  unfold score at ha
  simp [AddWith, addLoop, Store.Get, hr, ha, Store.write, Store.apply]

/-- C9, amended: in a state satisfying I1 where member `a` is present with
score `s1`, an `Add(s2, a)` with an 8-byte score `s2` whose point read of
`a` succeeds returns 1, and afterwards the member-index value of `a` is `s2`,
the score index has exactly one entry for `a`, namely the one carrying `s2`,
and `Len()` is unchanged; `s2` may equal `s1`.  The metadata key is assumed
to lie outside the aggregate prefix (it does for `layout`, see
`layout_zsetKey_outside`). -/
theorem Add_overwrite (c : Consts) (l : LevelZSet) (rok : ReadOracle) (a s1 s2 : Bytes)
    (hz : HasPrefix (zsetKey c l.key) (aggPrefix c l.key) = false)
    (hI1 : I1 c l.key l.db) (ha : score c l a = some s1) (hs2 : s2.length = 8)
    (hr : rok 0 = true) :
    ∃ l', AddWith c l rok [s2, a] true = Res.ret 1 l' ∧ score c l' a = some s2 ∧
      entriesFor c l'.key l'.db a = [scoreKey c l'.key a s2] ∧ Len l' = Len l := by
  refine ⟨_, AddWith_pair_present c l rok a s1 s2 ha hr, ?_, ?_, rfl⟩
  · -- the member index now holds `s2`
    have hzm : memberKey c l.key a ≠ zsetKey c l.key := by
      intro h
      rw [← h, HasPrefix_memberKey_aggPrefix] at hz
      exact Bool.noConfusion hz
    have hsm : memberKey c l.key a ≠ scoreKey c l.key a s2 := by
      intro h
      have := memberKey_not_scoreIndex c l.key a
      rw [h, HasPrefix_scoreKey] at this
      exact Bool.noConfusion this
    simp only [score, Store.get_put, if_neg hzm, if_neg hsm, if_true]
  · -- exactly one score-index entry for `a`, carrying `s2`
    have h0 : entriesFor c l.key l.db a = [scoreKey c l.key a s1] :=
      hI1 (a, s1) (mem_memberIndex_of_score c l a s1 ha)
    have hzs : HasPrefix (zsetKey c l.key) (scoreKeyPrefix c l.key) = false := by
      cases h : HasPrefix (zsetKey c l.key) (scoreKeyPrefix c l.key)
      · rfl
      · rw [HasPrefix_aggPrefix_of_scoreKeyPrefix c l.key _ h] at hz
        exact Bool.noConfusion hz
    have hne : scoreKey c l.key a s2 ≠ zsetKey c l.key := by
      intro h
      rw [← h, HasPrefix_scoreKey] at hzs
      exact Bool.noConfusion hzs
    have h1 : entriesFor c l.key (Store.delete l.db (scoreKey c l.key a s1)) a = [] := by
      rw [entriesFor_delete, h0]
      simp
    have h2 := entriesFor_put_perm c l.key (Store.delete l.db (scoreKey c l.key a s1)) a
      (memberKey c l.key a) s2
    rw [memberKey_not_scoreIndex, h1] at h2
    simp only [Bool.false_and, Bool.false_eq_true, if_false, List.filter_nil] at h2
    have h2' := List.Perm.eq_nil h2
    have h3 := entriesFor_put_perm c l.key (Store.put (Store.delete l.db
      (scoreKey c l.key a s1)) (memberKey c l.key a) s2) a (scoreKey c l.key a s2) []
    rw [HasPrefix_scoreKey, entryScore_scoreKey c l.key a s2 hs2, h2'] at h3
    simp only [Option.isSome_some, Bool.and_self, if_true, List.filter_nil] at h3
    have h3' := List.perm_singleton.1 h3
    have h4 := entriesFor_put_perm c l.key (Store.put (Store.put (Store.delete l.db
      (scoreKey c l.key a s1)) (memberKey c l.key a) s2) (scoreKey c l.key a s2) []) a
      (zsetKey c l.key) (zsetValue l.totalCount)
    rw [hzs, h3'] at h4
    simp only [Bool.false_and, Bool.false_eq_true, if_false] at h4
    rw [List.filter_cons, if_pos (by simpa using hne), List.filter_nil] at h4
    exact List.perm_singleton.1 h4

/-! ## `splitScoreKey` on the keys `scoreKey` builds -/

theorem lastIndexFrom_not_mem (sep : Byte) (s : Bytes) (i best : Int) (h : sep ∉ s) :
    lastIndexFrom sep s i best = best := by
  induction s generalizing i best with
  | nil => rfl
  | cons b bs ih =>
    simp only [List.mem_cons, not_or] at h
    simp only [lastIndexFrom]
    rw [if_neg (fun e => h.1 e.symm)]
    exact ih _ _ h.2

theorem lastIndexFrom_append (sep : Byte) (xs m : Bytes) (i best : Int) (h : sep ∉ m) :
    lastIndexFrom sep (xs ++ sep :: m) i best = i + xs.length := by
  induction xs generalizing i best with
  | nil =>
    rw [List.nil_append, lastIndexFrom, if_pos rfl, lastIndexFrom_not_mem sep m _ _ h]
    simp
  | cons x xs ih =>
    rw [List.cons_append, lastIndexFrom, ih, List.length_cons]
    push_cast
    omega

theorem LastIndex_append (sep : Byte) (xs m : Bytes) (h : sep ∉ m) :
    LastIndex (xs ++ sep :: m) sep = xs.length := by
  unfold LastIndex
  rw [lastIndexFrom_append sep xs m 0 (-1) h]
  omega

theorem slice_append (a b t : Bytes) (lo hi : Int) (hlo : lo = a.length)
    (hhi : hi = a.length + b.length) : slice (a ++ (b ++ t)) lo hi = some b := by
  subst hlo hhi
  unfold slice
  rw [if_pos ⟨by omega, by omega, by simp only [List.length_append]; push_cast; omega⟩]
  have h1 : ((a.length : Int) + b.length).toNat = (a ++ b).length := by
    rw [List.length_append]; omega
  have h2 : ((a.length : Int)).toNat = a.length := by omega
  rw [h1, h2, ← List.append_assoc, List.take_left, List.drop_left]

/-- Round trip away from the separator: when neither the score bytes nor the
member contain `SEP`, and `SEP` is not a sign character, `splitScoreKey`
returns the score and member `scoreKey` was built from. -/
theorem splitScoreKey_scoreKey_of_sep_free (c : Consts) (key member sc : Bytes)
    (hsign : c.SEP ≠ 48 ∧ c.SEP ≠ 49) (hsc : c.SEP ∉ sc) (hm : c.SEP ∉ member) :
    splitScoreKey c (scoreKey c key member sc) = some (sc, member) := by
  have hsg : c.SEP ∉ signOf sc :: sc := by
    simp only [List.mem_cons, not_or]
    refine ⟨?_, hsc⟩
    unfold signOf
    split
    · exact hsign.1
    · exact hsign.2
  have e1 : scoreKey c key member sc =
      (scoreKeyPrefix c key ++ (signOf sc :: sc)) ++ c.SEP :: member := by
    rw [scoreKey_eq]; simp
  have e2 : scoreKeyPrefix c key ++ (signOf sc :: sc) =
      (aggPrefix c key ++ [115]) ++ c.SEP :: (signOf sc :: sc) := by
    rw [scoreKeyPrefix_eq]; simp
  have p2 : LastIndex (scoreKey c key member sc) c.SEP =
      ((scoreKeyPrefix c key ++ (signOf sc :: sc)).length : Nat) := by
    rw [e1, LastIndex_append _ _ _ hm]
  have p1 : LastIndex (scoreKeyPrefix c key ++ (signOf sc :: sc)) c.SEP =
      ((aggPrefix c key ++ [115]).length : Nat) := by
    rw [e2, LastIndex_append _ _ _ hsg]
  have hd : slice (scoreKey c key member sc) 0
      ((scoreKeyPrefix c key ++ (signOf sc :: sc)).length : Nat) =
      some (scoreKeyPrefix c key ++ (signOf sc :: sc)) := by
    rw [e1]
    exact slice_append [] (scoreKeyPrefix c key ++ (signOf sc :: sc)) (c.SEP :: member)
      0 _ (by simp) (by simp)
  have hmem : slice (scoreKey c key member sc)
      (((scoreKeyPrefix c key ++ (signOf sc :: sc)).length : Nat) + 1)
      ((scoreKey c key member sc).length : Nat) = some member := by
    have e3 : scoreKey c key member sc =
        ((scoreKeyPrefix c key ++ (signOf sc :: sc)) ++ [c.SEP]) ++ (member ++ []) := by
      rw [e1]; simp
    rw [e3]
    refine slice_append _ member [] _ _ ?_ ?_
    · simp only [List.length_append, List.length_cons, List.length_nil]; push_cast; omega
    · simp only [List.length_append, List.length_cons, List.length_nil]; push_cast; omega
  have hscore : slice (scoreKey c key member sc)
      (((aggPrefix c key ++ [115]).length : Nat) + 1 + 1)
      ((scoreKeyPrefix c key ++ (signOf sc :: sc)).length : Nat) = some sc := by
    have e3 : scoreKey c key member sc =
        (aggPrefix c key ++ [115, c.SEP, signOf sc]) ++ (sc ++ c.SEP :: member) := by
      rw [e1, scoreKeyPrefix_eq]; simp
    rw [e3]
    refine slice_append _ sc _ _ _ ?_ ?_
    · simp only [List.length_append, List.length_cons, List.length_nil]; push_cast; omega
    · rw [scoreKeyPrefix_eq]
      simp only [List.length_append, List.length_cons, List.length_nil]; push_cast; omega
  unfold splitScoreKey
  simp only [p2, hd, p1, hmem, hscore]


theorem splitScoreKey_scoreKey_sep_last (c : Consts) (key member sc : Bytes)
    (hm : c.SEP ∉ member) :
    splitScoreKey c (scoreKey c key member (sc ++ [c.SEP])) = none := by
  have e1 : scoreKey c key member (sc ++ [c.SEP]) =
      (scoreKeyPrefix c key ++ (signOf (sc ++ [c.SEP]) :: (sc ++ [c.SEP]))) ++
        c.SEP :: member := by
    rw [scoreKey_eq]; simp
  have e2 : scoreKeyPrefix c key ++ (signOf (sc ++ [c.SEP]) :: (sc ++ [c.SEP])) =
      (scoreKeyPrefix c key ++ (signOf (sc ++ [c.SEP]) :: sc)) ++ c.SEP :: [] := by
    simp
  have p2 : LastIndex (scoreKey c key member (sc ++ [c.SEP])) c.SEP =
      ((scoreKeyPrefix c key ++ (signOf (sc ++ [c.SEP]) :: (sc ++ [c.SEP]))).length : Nat) := by
    rw [e1, LastIndex_append _ _ _ hm]
  have p1 : LastIndex (scoreKeyPrefix c key ++ (signOf (sc ++ [c.SEP]) :: (sc ++ [c.SEP])))
      c.SEP = ((scoreKeyPrefix c key ++ (signOf (sc ++ [c.SEP]) :: sc)).length : Nat) := by
    rw [e2, LastIndex_append _ _ _ (List.not_mem_nil _)]
  have hd : slice (scoreKey c key member (sc ++ [c.SEP])) 0
      ((scoreKeyPrefix c key ++ (signOf (sc ++ [c.SEP]) :: (sc ++ [c.SEP]))).length : Nat) =
      some (scoreKeyPrefix c key ++ (signOf (sc ++ [c.SEP]) :: (sc ++ [c.SEP]))) := by
    rw [e1]
    exact slice_append [] _ (c.SEP :: member) 0 _ (by simp) (by simp)
  have hscore : slice (scoreKey c key member (sc ++ [c.SEP]))
      (((scoreKeyPrefix c key ++ (signOf (sc ++ [c.SEP]) :: sc)).length : Nat) + 1 + 1)
      ((scoreKeyPrefix c key ++ (signOf (sc ++ [c.SEP]) :: (sc ++ [c.SEP]))).length : Nat) =
      none := by
    unfold slice
    rw [if_neg]
    simp only [List.length_append, List.length_cons, List.length_nil]
    push_cast
    omega
  unfold splitScoreKey
  simp only [p2, hd, p1, hscore]
  split <;> rfl

theorem layout_zsetKey_outside (key : Bytes) :
    HasPrefix (zsetKey layout key) (aggPrefix layout key) = false := by
  simp [zsetKey, aggPrefix, layout, HasPrefix]

theorem exTwo_eq :
    Add layout exEmpty [Int64ToBytes 1, exB, Int64ToBytes 2, exA] true = Res.ret 2 exTwo :=
  rfl

theorem exTwo_WF : exTwo.db.WF = true := by
  decide

theorem exSuffix_I1 :
    I1 layout exKey exSuffix.db ∧ I2 layout exSuffix ∧
    entriesFor layout exKey exSuffix.db exA = [scoreKey layout exKey exA (Int64ToBytes 1)] := by
  decide

theorem exSep_eq : Add layout exEmpty [Int64ToBytes 35, exA] true = Res.ret 1 exSep :=
  rfl

theorem exSepMid_eq : Add layout exEmpty [Int64ToBytes 8960, exA] true = Res.ret 1 exSepMid :=
  rfl

/-! ## The endpoints of `RangeByScore` -/

theorem byte_eq_of_not_lt (a b : Byte) (h1 : ¬ a < b) (h2 : ¬ b < a) : a = b := by
  apply Fin.ext
  simp only [Fin.lt_def, not_lt] at h1 h2
  omega

theorem Compare_append_same_length : ∀ (a b s t : Bytes), a.length = b.length →
    Compare (a ++ s) (b ++ t) = if Compare a b = 0 then Compare s t else Compare a b
  | [], [], _, _, _ => by simp [Compare]
  | [], _ :: _, _, _, hl => by simp at hl
  | _ :: _, [], _, _, hl => by simp at hl
  | x :: xs, y :: ys, s, t, hl => by
    simp only [List.cons_append, Compare]
    by_cases h1 : x < y
    · simp [h1]
    · by_cases h2 : y < x
      · simp [h1, h2]
      · simp only [h1, h2, if_false]
        exact Compare_append_same_length xs ys s t (by simpa using hl)

theorem Compare_outside (p x y : Bytes) : ∀ (k : Bytes), HasPrefix k p = false →
    ¬ (Compare (p ++ x) k ≤ 0 ∧ Compare k (p ++ y) ≤ 0) := by
  induction p with
  | nil => intro k h; simp [HasPrefix] at h
  | cons b bs ih =>
    intro k h
    cases k with
    | nil => simp [Compare]
    | cons a as =>
      simp only [List.cons_append, Compare]
      by_cases h1 : b < a
      · have h2 : ¬ a < b := by
          simp only [Fin.lt_def, not_lt] at h1 ⊢; omega
        simp [h1, h2]
      · by_cases h2 : a < b
        · simp [h1, h2]
        · have hab := byte_eq_of_not_lt _ _ h1 h2
          subst hab
          simp only [HasPrefix, beq_self_eq_true, Bool.true_and] at h
          simp only [h1, if_false]
          exact ih as h


theorem Compare_range_entry (c : Consts) (p min max e m : Bytes) (hsep : c.SEP ≠ MAXBYTE)
    (hmin : min.length = e.length) (hmax : max.length = e.length) :
    (decide (Compare (p ++ min) (p ++ (e ++ c.SEP :: m)) ≤ 0) &&
      decide (Compare (p ++ (e ++ c.SEP :: m)) (p ++ max ++ [MAXBYTE]) ≤ 0)) =
    inScoreRange min max e := by
  have h1 : Compare (p ++ min) (p ++ (e ++ c.SEP :: m)) =
      if Compare min e = 0 then -1 else Compare min e := by
    rw [Compare_append_left]
    have := Compare_append_same_length min e [] (c.SEP :: m) hmin
    rw [List.append_nil] at this
    rw [this]
    rfl
  have hlt : c.SEP < MAXBYTE := by
    have h255 : (MAXBYTE : Fin 256).val = 255 := rfl
    have hne : c.SEP.val ≠ 255 := fun h => hsep (Fin.ext (by rw [h, h255]))
    have := c.SEP.isLt
    simp only [Fin.lt_def, h255]
    omega
  have h2 : Compare (p ++ (e ++ c.SEP :: m)) (p ++ max ++ [MAXBYTE]) =
      if Compare e max = 0 then -1 else Compare e max := by
    rw [List.append_assoc, Compare_append_left,
      Compare_append_same_length e max _ _ hmax.symm]
    simp [Compare, hlt]
  rw [h1, h2]
  unfold inScoreRange
  congr 1
  · by_cases h : Compare min e = 0
    · simp [h]
    · simp [h]
  · by_cases h : Compare e max = 0
    · simp [h]
    · simp [h]

theorem forEach_rangeByScoreFn (c : Consts) (dec : Bytes → List Bytes) :
    ∀ (items : List (Bytes × Bytes)) (i : Int) (acc : List Bytes), 0 ≤ i →
    (∀ e ∈ items, ∃ sc m, splitScoreKey c e.1 = some (sc, m) ∧ dec e.1 = [sc, m]) →
    forEach (rangeByScoreFn c 0 (-1)) items i acc =
      some (acc ++ items.flatMap (fun e => dec e.1)) := by
  intro items
  induction items with
  | nil => intro i acc _ _; simp [forEach]
  | cons e rest ih =>
    intro i acc hi h
    obtain ⟨sc, m, h1, h2⟩ := h e (List.mem_cons_self _ _)
    have hr := ih (i + 1) (acc ++ [sc, m]) (by omega)
      (fun e' he' => h e' (List.mem_cons_of_mem _ he'))
    simp only [forEach, rangeByScoreFn, h1]
    rw [if_neg (by omega), if_neg (by simp)]
    simp only [Bool.false_eq_true, if_false, hr, List.flatMap_cons, h2, List.append_assoc]


theorem entryEnc_scoreKey (c : Consts) (key member sc : Bytes) (h : sc.length = 8) :
    entryEnc c key (scoreKey c key member sc) = signOf sc :: sc := by
  unfold entryEnc
  rw [scoreKey_eq, List.drop_left]
  have : (9 : Nat) = (signOf sc :: sc).length := by simp [h]
  rw [this, List.take_left]

theorem entryScore8_scoreKey (c : Consts) (key member sc : Bytes) (h : sc.length = 8) :
    entryScore8 c key (scoreKey c key member sc) = sc := by
  unfold entryScore8
  have e : scoreKey c key member sc =
      (scoreKeyPrefix c key ++ [signOf sc]) ++ (sc ++ c.SEP :: member) := by
    rw [scoreKey_eq]; simp
  have hl : (scoreKeyPrefix c key).length + 1 = (scoreKeyPrefix c key ++ [signOf sc]).length := by
    simp
  rw [e, hl, List.drop_left, ← h, List.take_left]

theorem entryMember8_scoreKey (c : Consts) (key member sc : Bytes) (h : sc.length = 8) :
    entryMember8 c key (scoreKey c key member sc) = member := by
  unfold entryMember8
  have e : scoreKey c key member sc =
      (scoreKeyPrefix c key ++ (signOf sc :: sc) ++ [c.SEP]) ++ member := by
    rw [scoreKey_eq]; simp
  have hl : (scoreKeyPrefix c key).length + 10 =
      (scoreKeyPrefix c key ++ (signOf sc :: sc) ++ [c.SEP]).length := by
    simp [h]
  rw [e, hl, List.drop_left]

/-- The endpoints of `RangeByScore` are inclusive.  In a store whose
score-index keys are all built by `scoreKey` from 8-byte scores, with no
separator byte in the score or the member, `RangeByScore(false, min, max, 0,
-1)` with 9-byte bounds returns `[score, member]` for exactly the score-index
entries `e` with `min <= e <= max`, in store order. -/
theorem RangeByScore_inclusive_of_sep_free (c : Consts) (l : LevelZSet) (min max : Bytes)
    (hsep : c.SEP ≠ 48 ∧ c.SEP ≠ 49 ∧ c.SEP ≠ MAXBYTE)
    (hmin : min.length = 9) (hmax : max.length = 9)
    (hform : ∀ k ∈ l.db.keys, HasPrefix k (scoreKeyPrefix c l.key) = true →
      ∃ m sc, k = scoreKey c l.key m sc ∧ sc.length = 8 ∧ c.SEP ∉ sc ∧ c.SEP ∉ m) :
    RangeByScore c l false min max 0 (-1) =
      some (((scoreIndex c l.key l.db).filter
        (fun k => inScoreRange min max (entryEnc c l.key k))).flatMap
        (fun k => [entryScore8 c l.key k, entryMember8 c l.key k])) := by
  have hfilter : l.db.filter (fun e =>
        decide (Compare (scoreKeyPrefix c l.key ++ min) e.1 ≤ 0) &&
        decide (Compare e.1 (scoreKeyPrefix c l.key ++ max ++ [MAXBYTE]) ≤ 0)) =
      l.db.filter (fun e => HasPrefix e.1 (scoreKeyPrefix c l.key) &&
        inScoreRange min max (entryEnc c l.key e.1)) := by
    apply List.filter_congr
    intro e he
    have hk : e.1 ∈ l.db.keys := List.mem_map_of_mem Prod.fst he
    cases hp : HasPrefix e.1 (scoreKeyPrefix c l.key)
    · have := Compare_outside (scoreKeyPrefix c l.key) min (max ++ [MAXBYTE]) e.1 hp
      rw [← List.append_assoc] at this
      simp only [Bool.false_and]
      by_contra hc
      apply this
      simpa using hc
    · obtain ⟨m, sc, hk', hlen, -, -⟩ := hform e.1 hk hp
      rw [hk', entryEnc_scoreKey c l.key m sc hlen, scoreKey_eq, Bool.true_and]
      exact Compare_range_entry c _ min max (signOf sc :: sc) m hsep.2.2
        (by simp [hmin, hlen]) (by simp [hmax, hlen])
  unfold RangeByScore Store.Enumerate
  simp only [Bool.false_eq_true, if_false]
  rw [hfilter, forEach_rangeByScoreFn c
    (fun k => [entryScore8 c l.key k, entryMember8 c l.key k]) _ 0 [] (le_refl _)]
  · rw [List.nil_append]
    congr 1
    unfold scoreIndex Store.keys
    rw [List.filter_filter, List.filter_map, List.flatMap_map]
    congr 1
    apply List.filter_congr
    intro e _
    simp [Bool.and_comm]
  · intro e he
    rw [List.mem_filter] at he
    have hk : e.1 ∈ l.db.keys := List.mem_map_of_mem Prod.fst he.1
    have hp : HasPrefix e.1 (scoreKeyPrefix c l.key) = true := by
      have := he.2
      simp only [Bool.and_eq_true] at this
      exact this.1
    obtain ⟨m, sc, hk', hlen, hsc, hm⟩ := hform e.1 hk hp
    refine ⟨sc, m, ?_, ?_⟩
    · rw [hk']
      exact splitScoreKey_scoreKey_of_sep_free c l.key m sc ⟨hsep.1, hsep.2.1⟩ hsc hm
    · simp only [hk', entryScore8_scoreKey c l.key m sc hlen,
        entryMember8_scoreKey c l.key m sc hlen]

/-- The inclusive endpoints on the set `{b: 1, a: 2}`: with `min` the encoding
of 1 and `max` the encoding of 2 both entries are returned. -/
theorem RangeByScore_inclusive_example :
    RangeByScore layout exTwo false (49 :: Int64ToBytes 1) (49 :: Int64ToBytes 2) 0 (-1) =
      some [Int64ToBytes 1, exB, Int64ToBytes 2, exA] := by
  have h := RangeByScore_inclusive_of_sep_free layout exTwo (49 :: Int64ToBytes 1)
    (49 :: Int64ToBytes 2) (by decide) (by decide) (by decide) (by
      intro k hk hp
      have hk' : k ∈ [zsetKey layout exKey, memberKey layout exKey exA,
          memberKey layout exKey exB, scoreKey layout exKey exB (Int64ToBytes 1),
          scoreKey layout exKey exA (Int64ToBytes 2)] := hk
      simp only [List.mem_cons, List.mem_singleton, List.not_mem_nil, or_false] at hk'
      rcases hk' with h | h | h | h | h
      · rw [h] at hp; exact absurd hp (by decide)
      · rw [h] at hp; exact absurd hp (by decide)
      · rw [h] at hp; exact absurd hp (by decide)
      · exact ⟨exB, Int64ToBytes 1, h, by decide, by decide, by decide⟩
      · exact ⟨exA, Int64ToBytes 2, h, by decide, by decide, by decide⟩)
  rw [h]
  decide

/-! ## The claims -/

/-- C1: the round trip `splitScoreKey (scoreKey member score) = (score, member)`
fails when a score byte is the separator.  For key `z`, member `a` (no
separator in it) and score 35, whose last byte is `#`, `splitScoreKey` panics
on `scorekey[pos1+2:pos2]`; for score 8960, whose seventh byte is `#`, it
returns the empty score. -/
theorem splitScoreKey_scoreKey_sep_in_score :
    Int64ToBytes 35 = [0, 0, 0, 0, 0, 0, 0, 35] ∧ layout.SEP ∉ exA ∧
    splitScoreKey layout (scoreKey layout exKey exA (Int64ToBytes 35)) = none ∧
    Int64ToBytes 8960 = [0, 0, 0, 0, 0, 0, 35, 0] ∧
    splitScoreKey layout (scoreKey layout exKey exA (Int64ToBytes 8960)) = some ([], exA) := by
  decide

/-- C2 witness: scores `-5 < 3` with members `b`, `a`. -/
theorem scoreKey_order_witness :
    (-2 ^ 63 ≤ (-5 : Int) ∧ (-5 : Int) < 2 ^ 63) ∧ (-2 ^ 63 ≤ (3 : Int) ∧ (3 : Int) < 2 ^ 63) ∧
    ((-5 : Int) < 3 →
      Compare (scoreKey layout exKey exB (Int64ToBytes (-5)))
        (scoreKey layout exKey exA (Int64ToBytes 3)) = -1) ∧
    ((-5 : Int) = 3 →
      Compare (scoreKey layout exKey exB (Int64ToBytes (-5)))
        (scoreKey layout exKey exA (Int64ToBytes 3)) = Compare exB exA) :=
  ⟨by decide, by decide, scoreKey_order layout exKey (-5) 3 (by decide) (by decide) exB exA⟩

/-- C3: `Add` with the same member in two pairs breaks I1.  On a fresh set
(I1 holds), `Add(1, a, 2, a)` returns 2 and leaves the member index with
`a ↦ 2` and the score index with two entries for `a`, for scores 1 and 2:
the old score is read from the store, where `a` is still absent, so the entry
for score 1 is never deleted. -/
theorem Add_duplicate_member_breaks_I1 :
    I1 layout exKey exEmpty.db ∧
    ∃ l', Add layout exEmpty [Int64ToBytes 1, exA, Int64ToBytes 2, exA] true = Res.ret 2 l' ∧
      memberIndex layout exKey l'.db = [(exA, Int64ToBytes 2)] ∧
      entriesFor layout exKey l'.db exA =
        [scoreKey layout exKey exA (Int64ToBytes 1),
          scoreKey layout exKey exA (Int64ToBytes 2)] ∧
      ¬ I1 layout exKey l'.db :=
  ⟨by decide, _, rfl, by decide, by decide, by decide⟩

/-- C4: `Add` with the same member in two pairs breaks I2.  On a fresh set
(`totalCount` = 0 = number of member-index entries), `Add(1, a, 2, a)` leaves
`Len()` = 2 and the metadata value `"2"`, with one member-index entry. -/
theorem Add_duplicate_member_breaks_I2 :
    I2 layout exEmpty ∧
    ∃ l', Add layout exEmpty [Int64ToBytes 1, exA, Int64ToBytes 2, exA] true = Res.ret 2 l' ∧
      Len l' = 2 ∧ l'.db.get (zsetKey layout exKey) = some [50] ∧
      memberCount layout exKey l'.db = 1 ∧ ¬ I2 layout l' :=
  ⟨by decide, _, rfl, by decide, by decide, by decide, by decide⟩

/-- C5: `Remove` naming the same member twice breaks I2.  On the set
`{b: 1, a: 2}` (`totalCount` = 2 = number of member-index entries),
`Remove(a, a)` returns 2 although one member-index entry is deleted, leaves
`Len()` = 0 with one entry remaining, and deletes the metadata key. -/
theorem Remove_duplicate_member_breaks_I2 :
    I2 layout exTwo ∧ memberCount layout exKey exTwo.db = 2 ∧
    ∃ l', Remove layout exTwo [exA, exA] true = Res.ret 2 l' ∧
      Len l' = 0 ∧ memberCount layout exKey l'.db = 1 ∧
      l'.db.get (zsetKey layout exKey) = none ∧ ¬ I2 layout l' :=
  ⟨by decide, by decide, _, rfl, by decide, by decide, by decide, by decide⟩

/-- C6: `IncrBy` on an absent member breaks I2.  On the set `{b: 1, a: 2}`
(`totalCount` = 2, metadata `"2"`, two member-index entries), `IncrBy(c, 5)`
creates the member-index entry of `c` and leaves `Len()` = 2 and the metadata
`"2"`, with three member-index entries. -/
theorem IncrBy_new_member_breaks_I2 :
    I2 layout exTwo ∧ I2stored layout exTwo ∧ score layout exTwo [99] = none ∧
    ∃ l', IncrBy layout exTwo [99] 5 true = Res.ret (Int64ToBytes 5) l' ∧
      memberCount layout exKey l'.db = 3 ∧ Len l' = 2 ∧
      l'.db.get (zsetKey layout exKey) = some [50] ∧ ¬ I2 layout l' ∧ ¬ I2stored layout l' :=
  ⟨by decide, by decide, by decide, _, rfl, by decide, by decide, by decide, by decide,
    by decide⟩

/-- C7: `Rank` returns -1 for a present member.  In the set `{b: 1, a: 2}`
(I1 holds) the score index iterated forward is `(1, b), (2, a)`, so `a` is at
position 1 forward and `b` at position 1 backward; `Rank(false, a)` and
`Rank(true, b)` both return -1. -/
theorem Rank_present_member_minus_one :
    I1 layout exKey exTwo.db ∧
    score layout exTwo exA = some (Int64ToBytes 2) ∧
    score layout exTwo exB = some (Int64ToBytes 1) ∧
    scoreIndex layout exKey exTwo.db =
      [scoreKey layout exKey exB (Int64ToBytes 1),
        scoreKey layout exKey exA (Int64ToBytes 2)] ∧
    Rank layout exTwo false exA = some (-1) ∧
    Rank layout exTwo true exB = some (-1) := by
  decide

/-- C8: `RangeByScore` does not return the `[score, member]` list of the
entries in range when a score byte is the separator.  In the set `{a: 35}`
(I1 holds, 8-byte score) `RangeByScore(false, "1"+35, "1"+35, 0, -1)` panics
inside `splitScoreKey`; in the set `{a: 8960}` it returns `["", a]`. -/
theorem RangeByScore_sep_in_score :
    I1 layout exKey exSep.db ∧
    scoreIndex layout exKey exSep.db = [scoreKey layout exKey exA (Int64ToBytes 35)] ∧
    RangeByScore layout exSep false (49 :: Int64ToBytes 35) (49 :: Int64ToBytes 35) 0 (-1)
      = none ∧
    I1 layout exKey exSepMid.db ∧
    RangeByScore layout exSepMid false (49 :: Int64ToBytes 8960) (49 :: Int64ToBytes 8960)
      0 (-1) = some [[], exA] := by
  decide

/-- C9 witness: the set `{b: 1, a: 2}` and `Add(7, a)` with every read
succeeding. -/
theorem Add_overwrite_witness :
    HasPrefix (zsetKey layout exTwo.key) (aggPrefix layout exTwo.key) = false ∧
    I1 layout exTwo.key exTwo.db ∧ score layout exTwo exA = some (Int64ToBytes 2) ∧
    (Int64ToBytes 7).length = 8 ∧ exReadsOk 0 = true ∧
    ∃ l', AddWith layout exTwo exReadsOk [Int64ToBytes 7, exA] true = Res.ret 1 l' ∧
      score layout l' exA = some (Int64ToBytes 7) ∧
      entriesFor layout l'.key l'.db exA = [scoreKey layout l'.key exA (Int64ToBytes 7)] ∧
      Len l' = Len exTwo :=
  ⟨by decide, by decide, by decide, by decide, rfl,
    Add_overwrite layout exTwo exReadsOk exA (Int64ToBytes 2) (Int64ToBytes 7)
      (by decide) (by decide) (by decide) (by decide) rfl⟩

/-- C9, counterexample: when the point read of `a` fails, the overwrite
leaves the old score-index entry in place and counts `a` again.  The set
`{b: 1, a: 2}` satisfies I1 and I2 and holds `a` with score 2; `Add(7, a)`
with `db.Get` returning an error returns 1 and leaves two score-index entries
for `a`, for scores 2 and 7, and `Len()` = 3. -/
theorem Add_overwrite_read_failure :
    I1 layout exTwo.key exTwo.db ∧ I2 layout exTwo ∧ I2stored layout exTwo ∧
    score layout exTwo exA = some (Int64ToBytes 2) ∧ Len exTwo = 2 ∧
    exNoRead 0 = false ∧
    ∃ l', AddWith layout exTwo exNoRead [Int64ToBytes 7, exA] true = Res.ret 1 l' ∧
      score layout l' exA = some (Int64ToBytes 7) ∧
      entriesFor layout l'.key l'.db exA =
        [scoreKey layout l'.key exA (Int64ToBytes 2),
          scoreKey layout l'.key exA (Int64ToBytes 7)] ∧
      Len l' = 3 :=
  ⟨by decide, by decide, by decide, by decide, by decide, rfl, _, rfl, by decide,
    by decide, by decide⟩

/-- C10: `Drop` leaves the aggregate in place after `IncrBy` created it.  The
state after `IncrBy(a, 1)` on a fresh set is reachable and has `totalCount`
= 0, so `Drop()` returns true at once and the store keeps the member-index
and score-index keys of `a`, both under the aggregate prefix. -/
theorem Drop_after_IncrBy_keeps_keys :
    Reachable layout exKey exIncr ∧
    Drop layout exIncr true = Res.ret true exIncr ∧
    (exIncr.db.PrefixEnumerate (aggPrefix layout exKey) false).map Prod.fst =
      [memberKey layout exKey exA, scoreKey layout exKey exA (Int64ToBytes 1)] :=
  ⟨Reachable.incrBy exA 1 true Reachable.init rfl, rfl, by decide⟩

/-! ## Lemmas on the replication run -/

theorem snapshot_scan (PREFIX : Bytes) (ok : WriteOracle) :
    ∀ (items : List (Bytes × Bytes)) (i : Int) (st : List Event × Nat × Bool),
    ∃ evs w b, forEach (snapshotFn PREFIX ok) items i st = some (st.1 ++ evs, w, b) ∧
      ∀ e ∈ evs, ∃ args o, e = Event.write args o := by
  intro items
  induction items with
  | nil =>
    intro i st
    exact ⟨[], st.2.1, st.2.2, by simp [forEach], by simp⟩
  | cons x rest ih =>
    intro i st
    obtain ⟨evs0, w0, b0⟩ := st
    simp only [forEach, snapshotFn]
    by_cases hp : HasPrefix x.1 PREFIX = true
    · simp only [hp, if_true, Bool.false_eq_true, if_false]
      exact ih (i + 1) (evs0, w0, b0)
    · simp only [hp, if_false]
      by_cases hw : ok w0 = true
      · simp only [hw, if_true, Bool.false_eq_true, if_false]
        obtain ⟨evs, w, b, h1, h2⟩ :=
          ih (i + 1) (evs0 ++ [Event.write [SYNC_RAW, x.1, x.2] true], w0 + 1, b0)
        refine ⟨Event.write [SYNC_RAW, x.1, x.2] true :: evs, w, b, ?_, ?_⟩
        · rw [h1]; simp
        · intro e he
          rcases List.mem_cons.1 he with h | h
          · exact ⟨_, _, h⟩
          · exact h2 e h
      · simp only [hw, if_true, Bool.false_eq_true, if_false]
        refine ⟨[Event.write [SYNC_RAW, x.1, x.2] false], w0 + 1, true, rfl, ?_⟩
        intro e he
        exact ⟨_, _, List.mem_singleton.1 he⟩

theorem snapshot_scan_ok (PREFIX : Bytes) (ok : WriteOracle) (hok : ∀ w, ok w = true) :
    ∀ (items : List (Bytes × Bytes)) (i : Int) (evs : List Event) (w : Nat),
    ∃ w', forEach (snapshotFn PREFIX ok) items i (evs, w, false) =
      some (evs ++ (items.filter (fun e => !HasPrefix e.1 PREFIX)).map
        (fun e => Event.write [SYNC_RAW, e.1, e.2] true), w', false) := by
  intro items
  induction items with
  | nil => intro i evs w; exact ⟨w, by simp [forEach]⟩
  | cons x rest ih =>
    intro i evs w
    simp only [forEach, snapshotFn, hok, if_true]
    by_cases hp : HasPrefix x.1 PREFIX = true
    · simp only [hp, if_true, Bool.false_eq_true, if_false]
      obtain ⟨w', h⟩ := ih (i + 1) evs w
      exact ⟨w', by rw [h]; simp [List.filter_cons, hp]⟩
    · simp only [hp, if_false, Bool.false_eq_true]
      obtain ⟨w', h⟩ := ih (i + 1) (evs ++ [Event.write [SYNC_RAW, x.1, x.2] true]) (w + 1)
      exact ⟨w', by rw [h]; simp [List.filter_cons, hp]⟩

theorem tailLoop_events (read : LogReads) (ok : WriteOracle) :
    ∀ (fuel t w : Nat) (seq : Int), ∀ e ∈ (tailLoop read ok fuel t w seq).1,
      e = Event.close ∨ e = Event.sleep ∨ (∃ args o, e = Event.write args o) ∨
        (∃ v o, e = Event.writeRaw v o) := by
  intro fuel
  induction fuel with
  | zero => intro t w seq e he; simp [tailLoop] at he
  | succ n ih =>
    intro t w seq e he
    simp only [tailLoop] at he
    split at he
    · simp only [List.mem_singleton] at he
      exact Or.inl he
    · rcases List.mem_cons.1 he with h | h
      · exact Or.inr (Or.inl h)
      · exact ih _ _ _ e h
    · split at he
      · split at he
        · rcases List.mem_cons.1 he with h | h
          · exact Or.inr (Or.inr (Or.inl ⟨_, _, h⟩))
          · rcases List.mem_cons.1 h with h | h
            · exact Or.inr (Or.inr (Or.inr ⟨_, _, h⟩))
            · exact ih _ _ _ e h
        · simp only [List.mem_cons, List.mem_singleton, List.not_mem_nil, or_false] at he
          rcases he with h | h | h
          · exact Or.inr (Or.inr (Or.inl ⟨_, _, h⟩))
          · exact Or.inr (Or.inr (Or.inr ⟨_, _, h⟩))
          · exact Or.inl h
      · simp only [List.mem_cons, List.mem_singleton, List.not_mem_nil, or_false] at he
        rcases he with h | h
        · exact Or.inr (Or.inr (Or.inl ⟨_, _, h⟩))
        · exact Or.inl h

theorem syncRunloop_events (read : LogReads) (ok : WriteOracle) (fuel t w : Nat) (seq : Int) :
    ∀ e ∈ (syncRunloop read ok fuel t w seq).1,
      e = Event.close ∨ e = Event.sleep ∨ (∃ args o, e = Event.write args o) ∨
        (∃ v o, e = Event.writeRaw v o) := by
  intro e he
  unfold syncRunloop at he
  split at he
  · rcases List.mem_cons.1 he with h | h
    · exact Or.inr (Or.inr (Or.inl ⟨_, _, h⟩))
    · exact tailLoop_events read ok _ _ _ _ e h
  · exact Or.inr (Or.inr (Or.inl ⟨_, _, List.mem_singleton.1 he⟩))


theorem sendSnapshot_shape (PREFIX : Bytes) (snap : Store) (curseq : Int) (read : LogReads)
    (ok : WriteOracle) (fuel : Nat) :
    ∃ mid : List Event, (∀ e ∈ mid, ∃ args o, e = Event.write args o) ∧
      (sendSnapshot PREFIX snap curseq read ok fuel =
          ([Event.suspend, Event.newSnapshot, Event.lastSeq, Event.resume] ++ mid ++
            [Event.releaseSnapshot], true) ∨
        ∃ w, sendSnapshot PREFIX snap curseq read ok fuel =
          ([Event.suspend, Event.newSnapshot, Event.lastSeq, Event.resume] ++ mid ++
            [Event.releaseSnapshot] ++ (syncRunloop read ok fuel 0 w (addInt64 curseq 1)).1,
            (syncRunloop read ok fuel 0 w (addInt64 curseq 1)).2)) := by
  unfold sendSnapshot
  by_cases h0 : ok 0 = true
  · simp only [h0, if_true]
    obtain ⟨evs, w, b, h1, h2⟩ :=
      snapshot_scan PREFIX ok (Store.Enumerate snap [] [MAXBYTE] false) 0 ([], 1, false)
    rw [h1]
    simp only [List.nil_append]
    by_cases hb : b = true
    · simp only [hb, if_true]
      refine ⟨Event.write [SYNC_RAW_BEG] true :: evs, ?_, Or.inl (by simp)⟩
      intro e he
      rcases List.mem_cons.1 he with h | h
      · exact ⟨_, _, h⟩
      · exact h2 e h
    · simp only [hb, if_false]
      by_cases hw : ok w = true
      · simp only [hw, if_true]
        refine ⟨Event.write [SYNC_RAW_BEG] true :: (evs ++ [Event.write [SYNC_RAW_FIN] true]),
          ?_, Or.inr ⟨w + 1, by simp⟩⟩
        intro e he
        rcases List.mem_cons.1 he with h | h
        · exact ⟨_, _, h⟩
        · rcases List.mem_append.1 h with h | h
          · exact h2 e h
          · exact ⟨_, _, List.mem_singleton.1 h⟩
      · simp only [hw, if_false, Bool.false_eq_true]
        refine ⟨Event.write [SYNC_RAW_BEG] true :: (evs ++ [Event.write [SYNC_RAW_FIN] false]),
          ?_, Or.inl (by simp)⟩
        intro e he
        rcases List.mem_cons.1 he with h | h
        · exact ⟨_, _, h⟩
        · rcases List.mem_append.1 h with h | h
          · exact h2 e h
          · exact ⟨_, _, List.mem_singleton.1 h⟩
  · simp only [h0, if_false, Bool.false_eq_true]
    refine ⟨[Event.write [SYNC_RAW_BEG] false], ?_, Or.inl (by simp)⟩
    intro e he
    exact ⟨_, _, List.mem_singleton.1 he⟩

/-- C17: on every run of `sendSnapshot` the first four calls are `Suspend`,
`NewSnapshot`, `LastSeq`, `Resume`, in this order, so no session write lies
between `Suspend` and `Resume`; neither `Suspend` nor `Resume` occurs again,
whatever the later writes do, so `Resume` is executed exactly once. -/
theorem sendSnapshot_gate (PREFIX : Bytes) (snap : Store) (curseq : Int) (read : LogReads)
    (ok : WriteOracle) (fuel : Nat) :
    ∃ rest : List Event,
      (sendSnapshot PREFIX snap curseq read ok fuel).1 =
        [Event.suspend, Event.newSnapshot, Event.lastSeq, Event.resume] ++ rest ∧
      Event.suspend ∉ rest ∧ Event.resume ∉ rest ∧
      (sendSnapshot PREFIX snap curseq read ok fuel).1.count Event.resume = 1 := by
  obtain ⟨mid, hmid, h⟩ := sendSnapshot_shape PREFIX snap curseq read ok fuel
  have hm1 : ∀ x : Event, (∀ args o, x ≠ Event.write args o) → x ∉ mid := by
    intro x hx hin
    obtain ⟨a, o, e⟩ := hmid x hin
    exact hx a o e
  have ht : ∀ (w : Nat) (x : Event), x = Event.suspend ∨ x = Event.resume →
      x ∉ (syncRunloop read ok fuel 0 w (addInt64 curseq 1)).1 := by
    intro w x hx hin
    rcases syncRunloop_events read ok fuel 0 w (addInt64 curseq 1) x hin with h | h | ⟨_, _, h⟩ |
      ⟨_, _, h⟩ <;> rcases hx with hx | hx <;> rw [hx] at h <;> exact Event.noConfusion h
  have hs : Event.suspend ∉ mid := hm1 _ (fun _ _ h => Event.noConfusion h)
  have hr : Event.resume ∉ mid := hm1 _ (fun _ _ h => Event.noConfusion h)
  rcases h with h | ⟨w, h⟩
  · refine ⟨mid ++ [Event.releaseSnapshot], by rw [h]; simp, ?_, ?_, ?_⟩
    · simp [hs]
    · simp [hr]
    · rw [h]
      simp [List.count_cons, List.count_append, List.count_eq_zero_of_not_mem hr]
  · have hs2 := ht w Event.suspend (Or.inl rfl)
    have hr2 := ht w Event.resume (Or.inr rfl)
    refine ⟨mid ++ [Event.releaseSnapshot] ++ (syncRunloop read ok fuel 0 w (addInt64 curseq 1)).1,
      by rw [h]; simp, ?_, ?_, ?_⟩
    · simp [hs, hs2]
    · simp [hr, hr2]
    · rw [h]
      simp [List.count_cons, List.count_append, List.count_eq_zero_of_not_mem hr,
        List.count_eq_zero_of_not_mem hr2]

/-- C18: on every run of `sendSnapshot`, whichever write fails or none,
`ReleaseSnapshot` is called exactly once: the calls are some calls without a
release, then the release, and then either nothing (the function has returned
on a failed write) or the calls of the tail loop, which contain no release,
so on the success path the snapshot is released before the tail loop starts. -/
theorem sendSnapshot_release (PREFIX : Bytes) (snap : Store) (curseq : Int) (read : LogReads)
    (ok : WriteOracle) (fuel : Nat) :
    (sendSnapshot PREFIX snap curseq read ok fuel).1.count Event.releaseSnapshot = 1 ∧
    ∃ before : List Event, Event.releaseSnapshot ∉ before ∧
      ((sendSnapshot PREFIX snap curseq read ok fuel =
          (before ++ [Event.releaseSnapshot], true)) ∨
        ∃ w, sendSnapshot PREFIX snap curseq read ok fuel =
          (before ++ [Event.releaseSnapshot] ++ (syncRunloop read ok fuel 0 w (addInt64 curseq 1)).1,
            (syncRunloop read ok fuel 0 w (addInt64 curseq 1)).2) ∧
          Event.releaseSnapshot ∉ (syncRunloop read ok fuel 0 w (addInt64 curseq 1)).1) := by
  obtain ⟨mid, hmid, h⟩ := sendSnapshot_shape PREFIX snap curseq read ok fuel
  have hm : Event.releaseSnapshot ∉ mid := by
    intro hin
    obtain ⟨a, o, e⟩ := hmid _ hin
    exact Event.noConfusion e
  have ht : ∀ w : Nat, Event.releaseSnapshot ∉ (syncRunloop read ok fuel 0 w (addInt64 curseq 1)).1 := by
    intro w hin
    rcases syncRunloop_events read ok fuel 0 w (addInt64 curseq 1) _ hin with h | h | ⟨_, _, h⟩ |
      ⟨_, _, h⟩ <;> exact Event.noConfusion h
  have hb : Event.releaseSnapshot ∉
      [Event.suspend, Event.newSnapshot, Event.lastSeq, Event.resume] ++ mid := by
    simp [hm]
  rcases h with h | ⟨w, h⟩
  · refine ⟨?_, _, hb, Or.inl h⟩
    rw [h]
    simp [List.count_cons, List.count_append, List.count_eq_zero_of_not_mem hm]
  · refine ⟨?_, _, hb, Or.inr ⟨w, h, ht w⟩⟩
    rw [h]
    simp [List.count_cons, List.count_append, List.count_eq_zero_of_not_mem hm,
      List.count_eq_zero_of_not_mem (ht w)]


theorem addInt64_succ (s : Int) (h : -2 ^ 63 ≤ s ∧ s < 2 ^ 63 - 1) : addInt64 s 1 = s + 1 := by
  unfold addInt64
  have h1 : (s + 1) % 2 ^ 64 = if 0 ≤ s + 1 then s + 1 else s + 1 + 2 ^ 64 := by
    split
    · exact Int.emod_eq_of_lt (by omega) (by omega)
    · rw [← Int.add_mul_emod_self (b := 1) (c := 2 ^ 64)]
      simp only [one_mul]
      exact Int.emod_eq_of_lt (by omega) (by omega)
  simp only [h1]
  split <;> split <;> omega

/-- C15, amended: when every write succeeds, `sendSnapshot` writes
`SYNC_RAW_BEG`, then one `SYNC_RAW key value` frame for every snapshot pair
that lies within the scan bounds `[[], [MAXBYTE]]` and whose key does not
start with `PREFIX`, each once and in snapshot (key) order, then
`SYNC_RAW_FIN`; it releases the snapshot and enters the tail loop with start
sequence `curseq + 1`, `curseq` being the value read while suspended, a
64-bit integer below the largest one (`curseq++` wraps there). -/
theorem sendSnapshot_stream (PREFIX : Bytes) (snap : Store) (curseq : Int) (read : LogReads)
    (ok : WriteOracle) (fuel : Nat) (hok : ∀ w, ok w = true)
    (hseq : -2 ^ 63 ≤ curseq ∧ curseq < 2 ^ 63 - 1) :
    ∃ w, sendSnapshot PREFIX snap curseq read ok fuel =
      ([Event.suspend, Event.newSnapshot, Event.lastSeq, Event.resume] ++
        [Event.write [SYNC_RAW_BEG] true] ++ rawFrames PREFIX snap ++
        [Event.write [SYNC_RAW_FIN] true, Event.releaseSnapshot] ++
        (syncRunloop read ok fuel 0 w (curseq + 1)).1,
        (syncRunloop read ok fuel 0 w (curseq + 1)).2) := by
  obtain ⟨w', h⟩ := snapshot_scan_ok PREFIX ok hok (Store.Enumerate snap [] [MAXBYTE] false)
    0 [] 1
  refine ⟨w' + 1, ?_⟩
  unfold sendSnapshot rawFrames
  rw [h, addInt64_succ curseq hseq]
  simp [hok]

theorem snapshot_bound_iff (b : Byte) (rest : Bytes) :
    (decide (Compare [] (b :: rest) ≤ 0) && decide (Compare (b :: rest) [MAXBYTE] ≤ 0)) = true ↔
      b ≠ MAXBYTE ∨ rest = [] := by
  have h255 : (MAXBYTE : Fin 256).val = 255 := rfl
  have hb := b.isLt
  by_cases h : b = MAXBYTE
  · subst h
    cases rest with
    | nil => simp [Compare]
    | cons x xs => simp [Compare]
  · have hlt : b < MAXBYTE := by
      have hne : b.val ≠ 255 := fun e => h (Fin.ext (by rw [e, h255]))
      simp only [Fin.lt_def, h255]
      omega
    simp [Compare, hlt, h]

theorem eq_of_append_sep (r : Byte) : ∀ (a b x y : Bytes), r ∉ a → r ∉ b →
    a ++ r :: x = b ++ r :: y → a = b ∧ x = y
  | [], [], _, _, _, _, h => by simpa using h
  | [], b0 :: b, _, _, _, hb, h => by
    simp only [List.nil_append, List.cons_append, List.cons.injEq] at h
    exact absurd h.1 (fun e => hb (by simp [e]))
  | a0 :: a, [], _, _, ha, _, h => by
    simp only [List.nil_append, List.cons_append, List.cons.injEq] at h
    exact absurd h.1 (fun e => ha (by simp [e]))
  | a0 :: a, b0 :: b, x, y, ha, hb, h => by
    simp only [List.cons_append, List.cons.injEq] at h
    have := eq_of_append_sep r a b x y (fun e => ha (List.mem_cons_of_mem _ e))
      (fun e => hb (List.mem_cons_of_mem _ e)) h.2
    exact ⟨by rw [h.1, this.1], this.2⟩

theorem aggPrefix_not_prefix (c : Consts) (r : Byte) (hr : c.SEP_RIGHT = [r])
    (k1 k2 rest : Bytes) (h1 : r ∉ k1) (h2 : r ∉ k2) (hne : k1 ≠ k2) :
    HasPrefix (aggPrefix c k2 ++ rest) (aggPrefix c k1) = false := by
  cases h : HasPrefix (aggPrefix c k2 ++ rest) (aggPrefix c k1)
  · rfl
  · exfalso
    have e1 : ∀ k, aggPrefix c k = (c.ZSET_PREFIX ++ c.SEP_LEFT) ++ (k ++ [r]) := by
      intro k; simp [aggPrefix, hr]
    rw [e1 k1, e1 k2, List.append_assoc, HasPrefix_append_append, HasPrefix_iff] at h
    obtain ⟨t, ht⟩ := h
    have := eq_of_append_sep r k1 k2 t rest h1 h2 (by simpa using ht)
    exact hne this.1

/-- C20, amended: for logical keys that do not contain the closing bracket
byte `SEP_RIGHT`, no member-index or score-index key built for `k2` starts
with the aggregate prefix of a different key `k1`, and `memberKey` is
injective on (logical key, member) pairs. -/
theorem keys_disjoint_of_no_bracket (c : Consts) (r : Byte) (k1 k2 m1 m2 sc : Bytes)
    (hr : c.SEP_RIGHT = [r]) (h1 : r ∉ k1) (h2 : r ∉ k2) :
    (k1 ≠ k2 →
      HasPrefix (memberKey c k2 m2) (aggPrefix c k1) = false ∧
      HasPrefix (scoreKey c k2 m2 sc) (aggPrefix c k1) = false) ∧
    (memberKey c k1 m1 = memberKey c k2 m2 → k1 = k2 ∧ m1 = m2) := by
  constructor
  · intro hne
    constructor
    · have e : memberKey c k2 m2 = aggPrefix c k2 ++ ([109, c.SEP] ++ m2) := by
        simp [memberKey, aggPrefix]
      rw [e]
      exact aggPrefix_not_prefix c r hr k1 k2 _ h1 h2 hne
    · have e : scoreKey c k2 m2 sc =
          aggPrefix c k2 ++ ([115, c.SEP] ++ ((signOf sc :: sc) ++ (c.SEP :: m2))) := by
        simp [scoreKey, aggPrefix]
      rw [e]
      exact aggPrefix_not_prefix c r hr k1 k2 _ h1 h2 hne
  · intro h
    have e : ∀ k m, memberKey c k m =
        (c.ZSET_PREFIX ++ c.SEP_LEFT) ++ (k ++ r :: ([109, c.SEP] ++ m)) := by
      intro k m; simp [memberKey, hr]
    rw [e k1 m1, e k2 m2] at h
    have h' := List.append_cancel_left h
    have := eq_of_append_sep r k1 k2 _ _ h1 h2 h'
    exact ⟨this.1, List.append_cancel_left this.2⟩


/-- The tail loop streams gap-free.  Sleeps aside, the calls of the loop are
the `SYNC_SEQ` frames of the consecutive sequences `s, s+1, ...`, each with a
value the log returned for that sequence, followed by nothing (the loop is
still running) or by the failing step and `session.Close()`: a read error, a
failed `SYNC_SEQ` write, or a failed raw write.  The sequences stay below
2^63, where `seq++` would wrap. -/
theorem tailLoop_gap_free (read : LogReads) (ok : WriteOracle) :
    ∀ (fuel t w : Nat) (s : Int), -2 ^ 63 ≤ s → s + fuel < 2 ^ 63 →
    ∃ (vals : List Bytes) (fin : List Event),
      (tailLoop read ok fuel t w s).1.filter (fun e => decide (e ≠ Event.sleep)) =
        seqFrames s vals ++ fin ∧
      (∀ (j : Nat) (v : Bytes), vals[j]? = some v →
        ∃ t', read t' (s + j) = ReadResult.value v) ∧
      ((fin = [] ∧ (tailLoop read ok fuel t w s).2 = false) ∨
        (fin = [Event.close] ∧ (tailLoop read ok fuel t w s).2 = true ∧
          ∃ t', read t' (s + vals.length) = ReadResult.err) ∨
        (fin = [Event.write [SYNC_SEQ, Itoa (s + vals.length)] false, Event.close] ∧
          (tailLoop read ok fuel t w s).2 = true) ∨
        (∃ v, fin = [Event.write [SYNC_SEQ, Itoa (s + vals.length)] true,
            Event.writeRaw v false, Event.close] ∧
          (tailLoop read ok fuel t w s).2 = true ∧
          ∃ t', read t' (s + vals.length) = ReadResult.value v)) := by
  intro fuel
  induction fuel with
  | zero =>
    intro t w s _ _
    exact ⟨[], [], by simp [tailLoop, seqFrames], by simp, Or.inl ⟨rfl, rfl⟩⟩
  | succ n ih =>
    intro t w s hlo hhi
    have hhi' : s + (n : Int) + 1 < 2 ^ 63 := by push_cast at hhi; omega
    cases hr : read t s with
    | err =>
      refine ⟨[], [Event.close], by simp [tailLoop, hr, seqFrames], by simp,
        Or.inr (Or.inl ⟨rfl, by simp [tailLoop, hr], t, by simpa using hr⟩)⟩
    | absent =>
      obtain ⟨vals, fin, h1, h2, h3⟩ := ih (t + 1) w s hlo (by omega)
      refine ⟨vals, fin, ?_, h2, ?_⟩
      · simp only [tailLoop, hr]
        rw [List.filter_cons, if_neg (by simp)]
        exact h1
      · simpa only [tailLoop, hr] using h3
    | value val =>
      have hnext : addInt64 s 1 = s + 1 := addInt64_succ s ⟨hlo, by omega⟩
      by_cases hw : ok w = true
      · by_cases hw2 : ok (w + 1) = true
        · obtain ⟨vals, fin, h1, h2, h3⟩ := ih (t + 1) (w + 2) (s + 1) (by omega) (by omega)
          have hs : ∀ k : Nat, s + 1 + (k : Int) = s + ((k + 1 : Nat) : Int) := by
            intro k; push_cast; omega
          refine ⟨val :: vals, fin, ?_, ?_, ?_⟩
          · simp only [tailLoop, hr, hw, hw2, if_true, hnext]
            rw [List.filter_cons, if_pos (by simp), List.filter_cons, if_pos (by simp), h1]
            simp [seqFrames]
          · intro j v hj
            cases j with
            | zero =>
              simp only [List.getElem?_cons_zero, Option.some.injEq] at hj
              exact ⟨t, by rw [← hj]; simpa using hr⟩
            | succ k =>
              simp only [List.getElem?_cons_succ] at hj
              obtain ⟨t', ht'⟩ := h2 k v hj
              exact ⟨t', by rw [← hs k]; exact ht'⟩
          · simp only [tailLoop, hr, hw, hw2, if_true, List.length_cons, hnext]
            rw [← hs vals.length]
            exact h3
        · refine ⟨[], _, ?_, by simp, Or.inr (Or.inr (Or.inr ⟨val, rfl, ?_, t, ?_⟩))⟩
          · simp [tailLoop, hr, hw, hw2, seqFrames]
          · simp [tailLoop, hr, hw, hw2]
          · simpa using hr
      · refine ⟨[], _, ?_, by simp, Or.inr (Or.inr (Or.inl ⟨rfl, ?_⟩))⟩
        · simp [tailLoop, hr, hw, seqFrames]
        · simp [tailLoop, hr, hw]

theorem syncRunloop_beg_ok (read : LogReads) (ok : WriteOracle) (fuel t w : Nat) (s : Int)
    (h : ok w = true) :
    syncRunloop read ok fuel t w s =
      (Event.write [SYNC_SEQ_BEG] true :: (tailLoop read ok fuel t (w + 1) s).1,
        (tailLoop read ok fuel t (w + 1) s).2) := by
  simp [syncRunloop, h]


theorem windowFrom_past {α : Type} (start stop : Int) (hs : stop ≠ -1) :
    ∀ (xs : List α) (i : Int), stop < i → windowFrom start stop xs i = [] := by
  intro xs
  induction xs with
  | nil => intro i _; rfl
  | cons x rest ih =>
    intro i hi
    simp only [windowFrom]
    rw [if_neg (by omega)]
    exact ih (i + 1) (by omega)

theorem windowFrom_all {α : Type} : ∀ (xs : List α) (i : Int), 0 ≤ i →
    windowFrom 0 (-1) xs i = xs := by
  intro xs
  induction xs with
  | nil => intro i _; rfl
  | cons x rest ih =>
    intro i hi
    rw [windowFrom, if_pos ⟨hi, Or.inl rfl⟩, ih (i + 1) (by omega)]

theorem forEach_rangeByIndexFn (c : Consts) (start stop : Int) (dec : Bytes → List Bytes) :
    ∀ (items : List (Bytes × Bytes)) (i : Int) (acc : List Bytes),
    (∀ e ∈ items, ∃ sc m, splitScoreKey c e.1 = some (sc, m) ∧ dec e.1 = [sc, m]) →
    forEach (rangeByIndexFn c start stop) items i acc =
      some (acc ++ (windowFrom start stop items i).flatMap (fun e => dec e.1)) := by
  intro items
  induction items with
  | nil => intro i acc _; simp [forEach, windowFrom]
  | cons e rest ih =>
    intro i acc h
    obtain ⟨sc, m, h1, h2⟩ := h e (List.mem_cons_self _ _)
    have hrest := fun e' he' => h e' (List.mem_cons_of_mem e he')
    simp only [forEach, rangeByIndexFn, windowFrom]
    by_cases hlt : i < start
    · rw [if_pos hlt, if_neg (by omega)]
      simp only [Bool.false_eq_true, if_false]
      exact ih (i + 1) acc hrest
    · rw [if_neg hlt]
      by_cases hin : stop = -1 ∨ i ≤ stop
      · rw [if_pos ⟨by omega, hin⟩, if_pos ⟨by omega, hin⟩]
        simp only [h1, Bool.false_eq_true, if_false]
        rw [ih (i + 1) (acc ++ [sc, m]) hrest]
        simp [List.flatMap_cons, h2]
      · rw [if_neg (fun h => hin h.2), if_neg (fun h => hin h.2)]
        simp only [if_true]
        have hs : stop ≠ -1 := fun e => hin (Or.inl e)
        rw [windowFrom_past start stop hs rest (i + 1) (by omega)]
        simp

/-- The window of `RangeByIndex`.  In a store whose score-index keys are all
built by `scoreKey` from 8-byte scores, with no separator byte in the score or
the member, `RangeByIndex(high2low, start, stop)` returns `[score, member]`
for exactly the entries of the score index, iterated in the requested
direction, at the positions `i` with `start <= i` and (`stop = -1` or
`i <= stop`). -/
theorem RangeByIndex_window_of_sep_free (c : Consts) (l : LevelZSet) (high2low : Bool)
    (start stop : Int) (hsep : c.SEP ≠ 48 ∧ c.SEP ≠ 49)
    (hform : ∀ k ∈ l.db.keys, HasPrefix k (scoreKeyPrefix c l.key) = true →
      ∃ m sc, k = scoreKey c l.key m sc ∧ sc.length = 8 ∧ c.SEP ∉ sc ∧ c.SEP ∉ m) :
    RangeByIndex c l high2low start stop =
      some ((windowFrom start stop
        (l.db.PrefixEnumerate (scoreKeyPrefix c l.key) high2low) 0).flatMap
        (fun e => [entryScore8 c l.key e.1, entryMember8 c l.key e.1])) := by
  unfold RangeByIndex
  rw [forEach_rangeByIndexFn c start stop
    (fun k => [entryScore8 c l.key k, entryMember8 c l.key k])]
  · rw [List.nil_append]
  · intro e he
    have he' : e ∈ l.db.filter (fun e => HasPrefix e.1 (scoreKeyPrefix c l.key)) := by
      unfold Store.PrefixEnumerate at he
      cases high2low
      · simpa using he
      · simpa using he
    rw [List.mem_filter] at he'
    have hk : e.1 ∈ l.db.keys := List.mem_map_of_mem Prod.fst he'.1
    obtain ⟨m, sc, hk', hlen, hsc, hm⟩ := hform e.1 hk he'.2
    refine ⟨sc, m, ?_, ?_⟩
    · rw [hk']
      exact splitScoreKey_scoreKey_of_sep_free c l.key m sc hsep hsc hm
    · simp only [hk', entryScore8_scoreKey c l.key m sc hlen,
        entryMember8_scoreKey c l.key m sc hlen]

theorem syncRunloop_returns_on_failed_beg (read : LogReads) (ok : WriteOracle) (fuel t w : Nat) (s : Int)
    (h : ok w = false) :
    syncRunloop read ok fuel t w s = ([Event.write [SYNC_SEQ_BEG] false], true) := by
  simp [syncRunloop, h]

theorem syncRunloop_example :
    syncRunloop exLog exAllOk 5 0 0 5 =
      (Event.write [SYNC_SEQ_BEG] true :: (seqFrames 5 [[5], [6], [7]] ++
        [Event.sleep, Event.sleep]), false) := by
  decide

theorem OnSYNC_absent_seq_always_closes (enabled : Bool) (minSeq maxSeq : Int)
    (remoteHost : Bytes) (h : 0 ≤ minSeq) :
    Event.close ∈ (OnSYNC SeqArg.absent enabled minSeq maxSeq remoteHost).2 := by
  have h1 : (-1 : Int) < minSeq ∨ (-1 : Int) > maxSeq := Or.inl (by omega)
  simp [OnSYNC, h1]

theorem OnSYNC_resume_outside_window (enabled : Bool) (seq minSeq maxSeq : Int) (remoteHost : Bytes)
    (h0 : 0 ≤ seq) (h : seq < minSeq ∨ seq > maxSeq) :
    (OnSYNC (SeqArg.value seq) enabled minSeq maxSeq remoteHost).2 =
      (if enabled then [] else [Event.enable]) ++
        [Event.close, Event.put remoteHost, Event.goRunloop seq] := by
  have h2 : ¬ seq < 0 := by omega
  simp [OnSYNC, h, h2]

/-! ## The claims, continued -/

/-- C11: a rejected write batch leaves the cached cardinality advanced.  On a
fresh set (`totalCount` = 0), `Add(1, a)` with `db.Write` failing panics, the
store is unchanged and `totalCount` is 1: the count is incremented in the
loop, before the write. -/
theorem Add_failed_write_advances_count :
    exEmpty.totalCount = 0 ∧
    ∃ l', Add layout exEmpty [Int64ToBytes 1, exA] false = Res.panicked l' ∧
      l'.db = exEmpty.db ∧ l'.totalCount = 1 :=
  ⟨by decide, _, rfl, by decide, by decide⟩

/-- C12: `splitScoreKey` does not reject keys with fewer than two separators.
On `ab#cd` (one separator) it prints "bad scorekey" and still returns the
pair `("b", "cd")`; on `abc` (no separator) and on `#cd` (one separator, at
index 0) it panics on a slice expression. -/
theorem splitScoreKey_malformed_not_rejected :
    sepCount layout [97, 98, 35, 99, 100] = 1 ∧
    splitScoreKeyLogs layout [97, 98, 35, 99, 100] = some true ∧
    splitScoreKey layout [97, 98, 35, 99, 100] = some ([98], [99, 100]) ∧
    sepCount layout [97, 98, 99] = 0 ∧
    splitScoreKey layout [97, 98, 99] = none ∧
    sepCount layout [35, 99, 100] = 1 ∧
    splitScoreKey layout [35, 99, 100] = none := by
  decide

/-- C13: a resume outside the log window is closed but still registered and
started.  For `SYNC uid 5` with `MinSeq` = 10 and `MaxSeq` = 20, `OnSYNC`
closes the session and then registers it and starts `syncRunloop` from 5. -/
theorem OnSYNC_out_of_window_still_registers :
    (0 : Int) ≤ 5 ∧ ((5 : Int) < 10 ∨ (5 : Int) > 20) ∧
    OnSYNC (SeqArg.value 5) true 10 20 exHost =
      (Reply.NOREPLY, [Event.close, Event.put exHost, Event.goRunloop 5]) := by
  decide

/-- C14: a full-resync request is closed.  With `MinSeq` = `MaxSeq` = 0 and
no `[SEQ]` argument, and with `MinSeq` = 0, `MaxSeq` = 7 and `[SEQ]` = -1,
`OnSYNC` closes the session before it registers it and starts `sendSnapshot`:
`seq` = -1 is below `MinSeq`. -/
theorem OnSYNC_full_resync_closes :
    OnSYNC SeqArg.absent true 0 0 exHost =
      (Reply.NOREPLY, [Event.close, Event.put exHost, Event.goSnapshot]) ∧
    OnSYNC (SeqArg.value (-1)) true 0 7 exHost =
      (Reply.NOREPLY, [Event.close, Event.put exHost, Event.goSnapshot]) := by
  decide

/-- C15, counterexample: a snapshot pair whose key is 0xFF 0x01 does not start
with the reserved prefix and is not streamed; with every write succeeding the
frames are `SYNC_RAW_BEG`, `SYNC_RAW k v`, `SYNC_RAW_FIN`. -/
theorem sendSnapshot_skips_key_above_bound :
    exSnapHigh = [([107], [118]), ([255, 1], [119])] ∧
    HasPrefix [255, 1] exPREFIX = false ∧
    sendSnapshot exPREFIX exSnapHigh 4 exLog exAllOk 0 =
      ([Event.suspend, Event.newSnapshot, Event.lastSeq, Event.resume,
        Event.write [SYNC_RAW_BEG] true, Event.write [SYNC_RAW, [107], [118]] true,
        Event.write [SYNC_RAW_FIN] true, Event.releaseSnapshot,
        Event.write [SYNC_SEQ_BEG] true], false) := by
  decide

/-- C15 witness: the snapshot `k`, `__x`, 0xFF with every write succeeding. -/
theorem sendSnapshot_stream_witness :
    (∀ w, exAllOk w = true) ∧ (-2 ^ 63 ≤ (4 : Int) ∧ (4 : Int) < 2 ^ 63 - 1) ∧
    rawFrames exPREFIX exSnap =
      [Event.write [SYNC_RAW, [107], [118]] true, Event.write [SYNC_RAW, [255], [120]] true] ∧
    ∃ w, sendSnapshot exPREFIX exSnap 4 exLog exAllOk 0 =
      ([Event.suspend, Event.newSnapshot, Event.lastSeq, Event.resume] ++
        [Event.write [SYNC_RAW_BEG] true] ++ rawFrames exPREFIX exSnap ++
        [Event.write [SYNC_RAW_FIN] true, Event.releaseSnapshot] ++
        (syncRunloop exLog exAllOk 0 0 w (4 + 1)).1,
        (syncRunloop exLog exAllOk 0 0 w (4 + 1)).2) :=
  ⟨fun _ => rfl, by decide, by decide,
    sendSnapshot_stream exPREFIX exSnap 4 exLog exAllOk 0 (fun _ => rfl) (by decide)⟩

/-- C16, counterexample: a failed `SYNC_SEQ_BEG` write does not close the
session.  On a session whose writes fail, `syncRunloop` attempts the
`SYNC_SEQ_BEG` write and returns, with no `session.Close()`; when a later
write fails (here the raw bytes of sequence 5) the loop is left and the
session is closed. -/
theorem syncRunloop_beg_failure_no_close :
    syncRunloop exLog exNoWrite 10 0 0 5 = ([Event.write [SYNC_SEQ_BEG] false], true) ∧
    Event.close ∉ (syncRunloop exLog exNoWrite 10 0 0 5).1 ∧
    syncRunloop exLog exTwoWrites 10 0 0 5 =
      ([Event.write [SYNC_SEQ_BEG] true, Event.write [SYNC_SEQ, Itoa 5] true,
        Event.writeRaw [5] false, Event.close], true) := by
  decide

/-- C16, amended: for every log, session and start sequence `s0` (a 64-bit
integer, the run staying below 2^63), when the `SYNC_SEQ_BEG` write fails
`syncRunloop` returns without closing the session; when it succeeds, the
calls after it are, sleeps aside, for `s = s0, s0+1, ...` in consecutive
order the frame `SYNC_SEQ <decimal s>` and then the raw bytes the log
returned for `s`, each sequence once and only sequences for which the log
returned a value, followed by nothing while the loop is still running, or by
the first failing step and `session.Close()`: a log read error, a failed
`SYNC_SEQ` write, or a failed write of the raw bytes. -/
theorem syncRunloop_stream (read : LogReads) (ok : WriteOracle) (fuel t w : Nat) (s0 : Int)
    (hlo : -2 ^ 63 ≤ s0) (hhi : s0 + fuel < 2 ^ 63) :
    (ok w = false →
      syncRunloop read ok fuel t w s0 = ([Event.write [SYNC_SEQ_BEG] false], true)) ∧
    (ok w = true → ∃ (tail : List Event) (vals : List Bytes) (fin : List Event),
      syncRunloop read ok fuel t w s0 =
        (Event.write [SYNC_SEQ_BEG] true :: tail, decide (fin ≠ [])) ∧
      tail.filter (fun e => decide (e ≠ Event.sleep)) = seqFrames s0 vals ++ fin ∧
      (∀ (j : Nat) (v : Bytes), vals[j]? = some v →
        ∃ t', read t' (s0 + j) = ReadResult.value v) ∧
      (fin = [] ∨
        (fin = [Event.close] ∧ ∃ t', read t' (s0 + vals.length) = ReadResult.err) ∨
        fin = [Event.write [SYNC_SEQ, Itoa (s0 + vals.length)] false, Event.close] ∨
        ∃ v, fin = [Event.write [SYNC_SEQ, Itoa (s0 + vals.length)] true,
            Event.writeRaw v false, Event.close] ∧
          ∃ t', read t' (s0 + vals.length) = ReadResult.value v)) := by
  constructor
  · intro h
    exact syncRunloop_returns_on_failed_beg read ok fuel t w s0 h
  · intro h
    obtain ⟨vals, fin, h1, h2, h3⟩ := tailLoop_gap_free read ok fuel t (w + 1) s0 hlo hhi
    refine ⟨(tailLoop read ok fuel t (w + 1) s0).1, vals, fin, ?_, h1, h2, ?_⟩
    · rw [syncRunloop_beg_ok read ok fuel t w s0 h]
      rcases h3 with ⟨hf, hb⟩ | ⟨hf, hb, _⟩ | ⟨hf, hb⟩ | ⟨v, hf, hb, _⟩ <;>
        simp [hf, hb]
    · rcases h3 with ⟨hf, _⟩ | ⟨hf, _, hr⟩ | ⟨hf, _⟩ | ⟨v, hf, _, hr⟩
      · exact Or.inl hf
      · exact Or.inr (Or.inl ⟨hf, hr⟩)
      · exact Or.inr (Or.inr (Or.inl hf))
      · exact Or.inr (Or.inr (Or.inr ⟨v, hf, hr⟩))

/-- C16 witness: the log 5, 6, 7 from sequence 5 on a session whose writes
all succeed, for 5 iterations. -/
theorem syncRunloop_stream_witness :
    -2 ^ 63 ≤ (5 : Int) ∧ (5 : Int) + (5 : Nat) < 2 ^ 63 ∧
    (exAllOk 0 = false →
      syncRunloop exLog exAllOk 5 0 0 5 = ([Event.write [SYNC_SEQ_BEG] false], true)) ∧
    (exAllOk 0 = true → ∃ (tail : List Event) (vals : List Bytes) (fin : List Event),
      syncRunloop exLog exAllOk 5 0 0 5 =
        (Event.write [SYNC_SEQ_BEG] true :: tail, decide (fin ≠ [])) ∧
      tail.filter (fun e => decide (e ≠ Event.sleep)) = seqFrames 5 vals ++ fin ∧
      (∀ (j : Nat) (v : Bytes), vals[j]? = some v →
        ∃ t', exLog t' (5 + j) = ReadResult.value v) ∧
      (fin = [] ∨
        (fin = [Event.close] ∧ ∃ t', exLog t' (5 + vals.length) = ReadResult.err) ∨
        fin = [Event.write [SYNC_SEQ, Itoa (5 + vals.length)] false, Event.close] ∨
        ∃ v, fin = [Event.write [SYNC_SEQ, Itoa (5 + vals.length)] true,
            Event.writeRaw v false, Event.close] ∧
          ∃ t', exLog t' (5 + vals.length) = ReadResult.value v)) :=
  ⟨by decide, by decide, syncRunloop_stream exLog exAllOk 5 0 0 5 (by decide) (by decide)⟩

/-- C19: `RangeByIndex` does not return the window when a score byte is the
separator.  In the set `{a: 35}` (I1 holds, one score-index entry)
`RangeByIndex(high2low, 0, -1)` panics inside `splitScoreKey` in both
directions; in the set `{a: 8960}` it returns `["", a]`. -/
theorem RangeByIndex_sep_in_score :
    I1 layout exKey exSep.db ∧
    scoreIndex layout exKey exSep.db = [scoreKey layout exKey exA (Int64ToBytes 35)] ∧
    RangeByIndex layout exSep false 0 (-1) = none ∧
    RangeByIndex layout exSep true 0 (-1) = none ∧
    RangeByIndex layout exSepMid false 0 (-1) = some [[], exA] := by
  decide

/-- C20, counterexample: with the logical keys `a` and `a]m#x`, the
member-index and score-index keys of `a]m#x` start with the aggregate prefix
of `a`, and `memberKey` maps (`a`, `x]m#y`) and (`a]m#x`, `y`) to the same
key. -/
theorem keys_overlap_with_bracket :
    exKeyA ≠ exKeyBracket ∧
    HasPrefix (memberKey layout exKeyBracket [121]) (aggPrefix layout exKeyA) = true ∧
    HasPrefix (scoreKey layout exKeyBracket [121] (Int64ToBytes 1))
      (aggPrefix layout exKeyA) = true ∧
    memberKey layout exKeyA [120, 93, 109, 35, 121] = memberKey layout exKeyBracket [121] := by
  decide

/-- C20 witness: the keys `a` and `z`, neither containing `]`. -/
theorem keys_disjoint_of_no_bracket_witness :
    layout.SEP_RIGHT = [93] ∧ (93 : Byte) ∉ exKeyA ∧ (93 : Byte) ∉ exKey ∧
    ((exKeyA ≠ exKey →
      HasPrefix (memberKey layout exKey exB) (aggPrefix layout exKeyA) = false ∧
      HasPrefix (scoreKey layout exKey exB (Int64ToBytes 1)) (aggPrefix layout exKeyA)
        = false) ∧
    (memberKey layout exKeyA exA = memberKey layout exKey exB → exKeyA = exKey ∧ exA = exB)) :=
  ⟨rfl, by decide, by decide,
    keys_disjoint_of_no_bracket layout 93 exKeyA exKey exA exB (Int64ToBytes 1) rfl
      (by decide) (by decide)⟩

end GoRedis
